import Mathlib

/-!
Shallow Lean embedding of `utils/domain_substitution.py`: the domain
substitution engine (Pattern Table, File Transformer, Cache Writer,
Cache Verifier, Revert Engine) of the chromium build-tooling repository.

File contents are byte lists, trees are finite maps from relative paths to
file data, and the cache archive is modelled in its extracted form (the tar
container itself is handled by the external extraction service).  External
Python library functions (the `re` engine, the text codecs, `zlib.crc32`)
are either parameters of the definitions or concrete models, as noted in
doc comments.
-/

set_option maxRecDepth 8192

namespace DomainSubstitution

/-- A byte of file content. -/
abbrev Byte := Fin 256

/-- A tree-relative path, as its character sequence. -/
abbrev FPath := List Char

/-- Decoded text content, as its character sequence. -/
abbrev Text := List Char

/-! ### Constants from the source -/

/-- `INDEX_HASH_DELIMITER = '|'` -/
def INDEX_HASH_DELIMITER : Char := '|'

/-- `PATTERN_REPLACE_DELIMITER = '#'` -/
def PATTERN_REPLACE_DELIMITER : Char := '#'

/-- `TIMESTAMP_DELTA = 1 * 10**9` (nanoseconds). -/
def TIMESTAMP_DELTA : Int := 1 * 10 ^ 9

/-- Nanoseconds in one second (unit constant, for stating C9). -/
def NS_PER_SECOND : Int := 10 ^ 9

/-! ### Model of `zlib.crc32` (external library)

The reflected CRC-32 (IEEE 802.3, polynomial `0xEDB88320`), computed
bit-by-bit; this is the checksum `zlib.crc32` computes on a byte string. -/

/-- The reflected CRC-32 generator polynomial. -/
def CRC32_POLY : Nat := 0xEDB88320

/-- One bit step of the reflected CRC-32. -/
def crcStep (c : Nat) : Nat :=
  if c % 2 = 1 then (c / 2) ^^^ CRC32_POLY else c / 2

/-- Absorb one byte into the CRC state: xor it in, then run 8 bit steps. -/
def crcByte (c : Nat) (b : Byte) : Nat := crcStep^[8] (c ^^^ b.val)

/-- Model of `zlib.crc32` on a byte string (initial value 0). -/
def crc32 (bs : List Byte) : Nat :=
  (bs.foldl crcByte 0xFFFFFFFF) ^^^ 0xFFFFFFFF

theorem crcStep_lt {c : Nat} (h : c < 2 ^ 32) : crcStep c < 2 ^ 32 := by
  unfold crcStep
  have hdiv : c / 2 < 2 ^ 32 := by omega
  split
  · exact Nat.xor_lt_two_pow hdiv (by norm_num [CRC32_POLY])
  · exact hdiv

theorem crcStep_inj {c₁ c₂ : Nat} (h₁ : c₁ < 2 ^ 32) (h₂ : c₂ < 2 ^ 32)
    (h : crcStep c₁ = crcStep c₂) : c₁ = c₂ := by
  unfold crcStep at h
  have hp31 : Nat.testBit CRC32_POLY 31 = true := by decide
  have hbit : ∀ {a : Nat}, a < 2 ^ 32 →
      Nat.testBit ((a / 2) ^^^ CRC32_POLY) 31 = true := by
    intro a ha
    have hdiv : a / 2 < 2 ^ 31 := by omega
    rw [Nat.testBit_xor, Nat.testBit_eq_false_of_lt hdiv, hp31]
    rfl
  have hbit0 : ∀ {a : Nat}, a < 2 ^ 32 → Nat.testBit (a / 2) 31 = false := by
    intro a ha
    exact Nat.testBit_eq_false_of_lt (by omega)
  rcases Nat.mod_two_eq_zero_or_one c₁ with e₁ | e₁ <;>
    rcases Nat.mod_two_eq_zero_or_one c₂ with e₂ | e₂
  · simp only [e₁, e₂] at h
    norm_num at h
    omega
  · simp only [e₁, e₂] at h
    norm_num at h
    have := hbit h₂
    rw [← h] at this
    rw [hbit0 h₁] at this
    exact absurd this (by simp)
  · simp only [e₁, e₂] at h
    norm_num at h
    have := hbit h₁
    rw [h] at this
    rw [hbit0 h₂] at this
    exact absurd this (by simp)
  · simp only [e₁, e₂] at h
    norm_num at h
    have hq : c₁ / 2 = c₂ / 2 := by
      have := congrArg (fun x => x ^^^ CRC32_POLY) h
      simpa [Nat.xor_cancel_right] using this
    omega

theorem crcStep_iter_lt {c : Nat} (k : Nat) (h : c < 2 ^ 32) :
    crcStep^[k] c < 2 ^ 32 := by
  induction k generalizing c with
  | zero => simpa using h
  | succ n ih =>
    rw [Function.iterate_succ_apply]
    exact ih (crcStep_lt h)

theorem crcStep_iter_inj {c₁ c₂ : Nat} (k : Nat) (h₁ : c₁ < 2 ^ 32)
    (h₂ : c₂ < 2 ^ 32) (h : crcStep^[k] c₁ = crcStep^[k] c₂) : c₁ = c₂ := by
  induction k generalizing c₁ c₂ with
  | zero => simpa using h
  | succ n ih =>
    rw [Function.iterate_succ_apply, Function.iterate_succ_apply] at h
    exact crcStep_inj h₁ h₂ (ih (crcStep_lt h₁) (crcStep_lt h₂) h)

theorem crcByte_lt {c : Nat} (b : Byte) (h : c < 2 ^ 32) : crcByte c b < 2 ^ 32 := by
  unfold crcByte
  exact crcStep_iter_lt 8 (Nat.xor_lt_two_pow h (lt_trans b.isLt (by norm_num)))

theorem crcByte_inj {c₁ c₂ : Nat} (b : Byte) (h₁ : c₁ < 2 ^ 32) (h₂ : c₂ < 2 ^ 32)
    (h : crcByte c₁ b = crcByte c₂ b) : c₁ = c₂ := by
  unfold crcByte at h
  have hx₁ : c₁ ^^^ b.val < 2 ^ 32 :=
    Nat.xor_lt_two_pow h₁ (lt_trans b.isLt (by norm_num))
  have hx₂ : c₂ ^^^ b.val < 2 ^ 32 :=
    Nat.xor_lt_two_pow h₂ (lt_trans b.isLt (by norm_num))
  have := crcStep_iter_inj 8 hx₁ hx₂ h
  have h' := congrArg (fun x => x ^^^ b.val) this
  simpa [Nat.xor_cancel_right] using h'

theorem crc_foldl_lt {c : Nat} (l : List Byte) (h : c < 2 ^ 32) :
    l.foldl crcByte c < 2 ^ 32 := by
  induction l generalizing c with
  | nil => simpa using h
  | cons b t ih => exact ih (crcByte_lt b h)

theorem crc_foldl_inj {c₁ c₂ : Nat} (l : List Byte) (h₁ : c₁ < 2 ^ 32)
    (h₂ : c₂ < 2 ^ 32) (h : l.foldl crcByte c₁ = l.foldl crcByte c₂) : c₁ = c₂ := by
  induction l generalizing c₁ c₂ with
  | nil => simpa using h
  | cons b t ih =>
    simp only [List.foldl_cons] at h
    exact crcByte_inj b h₁ h₂ (ih (crcByte_lt b h₁) (crcByte_lt b h₂) h)

theorem crc32_lt (bs : List Byte) : crc32 bs < 2 ^ 32 := by
  unfold crc32
  exact Nat.xor_lt_two_pow (crc_foldl_lt bs (by norm_num)) (by norm_num)

/-- CRC-32 detects every single-byte change: two byte strings that agree
everywhere except in one (differing) byte have distinct checksums. -/
theorem crc32_single_byte_ne {pre suf : List Byte} {b₁ b₂ : Byte} (hb : b₁ ≠ b₂) :
    crc32 (pre ++ b₁ :: suf) ≠ crc32 (pre ++ b₂ :: suf) := by
  intro h
  unfold crc32 at h
  have h₂ := congrArg (fun x => x ^^^ 0xFFFFFFFF) h
  simp only [Nat.xor_cancel_right] at h₂
  rw [List.foldl_append, List.foldl_append] at h₂
  simp only [List.foldl_cons] at h₂
  set c : Nat := pre.foldl crcByte 0xFFFFFFFF with hc
  have hclt : c < 2 ^ 32 := crc_foldl_lt pre (by norm_num)
  have hby : crcByte c b₁ = crcByte c b₂ :=
    crc_foldl_inj suf (crcByte_lt b₁ hclt) (crcByte_lt b₂ hclt) h₂
  unfold crcByte at hby
  have hxlt₁ : c ^^^ b₁.val < 2 ^ 32 :=
    Nat.xor_lt_two_pow hclt (lt_trans b₁.isLt (by norm_num))
  have hxlt₂ : c ^^^ b₂.val < 2 ^ 32 :=
    Nat.xor_lt_two_pow hclt (lt_trans b₂.isLt (by norm_num))
  have hx := crcStep_iter_inj 8 hxlt₁ hxlt₂ hby
  have : b₁.val = b₂.val := by
    have := congrArg (fun x => c ^^^ x) (Nat.xor_cancel_left c b₁.val)
    calc b₁.val = c ^^^ (c ^^^ b₁.val) := (Nat.xor_cancel_left c b₁.val).symm
    _ = c ^^^ (c ^^^ b₂.val) := by rw [hx]
    _ = b₂.val := Nat.xor_cancel_left c b₂.val
  exact hb (Fin.val_injective this)

/-! ### Hexadecimal formatting and parsing

Models of Python's `'{:08x}'.format(h)` (lowercase, zero padded) and of
`int(s, 16)` (external language primitives). -/

/-- The lowercase hex digit character for a value `d < 16`. -/
def hexDigitChar (d : Nat) : Char :=
  if d < 10 then Char.ofNat (48 + d) else Char.ofNat (87 + d)

/-- The `k`-digit zero-padded lowercase hex rendering of `n` (most
significant digit first), as produced by `'{:08x}'.format` for `k = 8`. -/
def toHexDigits : Nat → Nat → List Char
  | 0, _ => []
  | k + 1, n => toHexDigits k (n / 16) ++ [hexDigitChar (n % 16)]

/-- Value of one hex digit character, upper or lower case (`int(·, 16)`
accepts both); `none` if the character is not a hex digit. -/
def hexCharVal (c : Char) : Option Nat :=
  if '0' ≤ c ∧ c ≤ '9' then some (c.toNat - 48)
  else if 'a' ≤ c ∧ c ≤ 'f' then some (c.toNat - 87)
  else if 'A' ≤ c ∧ c ≤ 'F' then some (c.toNat - 55)
  else none

/-- Accumulating hex parser over a digit sequence. -/
def parseHexAux (acc : Nat) : List Char → Option Nat
  | [] => some acc
  | c :: cs =>
    match hexCharVal c with
    | none => none
    | some d => parseHexAux (acc * 16 + d) cs

/-- Parse a nonempty hex digit string; `none` on the empty string or any
non-hex character. -/
def parseHexDigits (s : List Char) : Option Nat :=
  match s with
  | [] => none
  | _ => parseHexAux 0 s

/-- Model of Python `int(s, 16)` restricted to the alphanumeric strings the
Verifier's CRC32 regex admits: an optional `0x`/`0X` prefix followed by hex
digits; `none` models the `ValueError` on anything else. -/
def int16 (s : List Char) : Option Nat :=
  match s with
  | c₀ :: c₁ :: rest =>
    if c₀ = '0' ∧ (c₁ = 'x' ∨ c₁ = 'X') then parseHexDigits rest
    else parseHexDigits (c₀ :: c₁ :: rest)
  | _ => parseHexDigits s

theorem hexCharVal_hexDigitChar {d : Nat} (h : d < 16) :
    hexCharVal (hexDigitChar d) = some d := by
  interval_cases d <;> rfl

theorem toHexDigits_length (k n : Nat) : (toHexDigits k n).length = k := by
  induction k generalizing n with
  | zero => rfl
  | succ m ih => simp [toHexDigits, ih]

theorem parseHexAux_append (acc : Nat) (l₁ l₂ : List Char) :
    parseHexAux acc (l₁ ++ l₂) =
      match parseHexAux acc l₁ with
      | none => none
      | some m => parseHexAux m l₂ := by
  induction l₁ generalizing acc with
  | nil => simp [parseHexAux]
  | cons c cs ih =>
    simp only [List.cons_append, parseHexAux]
    cases hexCharVal c with
    | none => rfl
    | some d => exact ih (acc * 16 + d)

theorem parseHexAux_toHexDigits (k : Nat) :
    ∀ acc n, n < 16 ^ k → parseHexAux acc (toHexDigits k n) = some (acc * 16 ^ k + n) := by
  induction k with
  | zero =>
    intro acc n hn
    have : n = 0 := by omega
    simp [this, toHexDigits, parseHexAux]
  | succ m ih =>
    intro acc n hn
    have hdiv : n / 16 < 16 ^ m := by
      have : 16 ^ (m + 1) = 16 ^ m * 16 := by ring
      omega
    rw [toHexDigits, parseHexAux_append]
    rw [ih acc (n / 16) hdiv]
    simp only [parseHexAux, hexCharVal_hexDigitChar (Nat.mod_lt n (by norm_num)
      : n % 16 < 16)]
    have : (acc * 16 ^ m + n / 16) * 16 + n % 16 = acc * 16 ^ (m + 1) + n := by
      have h16 : 16 ^ (m + 1) = 16 ^ m * 16 := by ring
      have := Nat.div_add_mod n 16
      nlinarith [Nat.div_add_mod n 16]
    rw [this]

/-- Characters emitted by `toHexDigits` are lowercase hex digits. -/
theorem toHexDigits_mem {k n : Nat} {c : Char} (h : c ∈ toHexDigits k n) :
    ∃ d, d < 16 ∧ c = hexDigitChar d := by
  induction k generalizing n with
  | zero => simp [toHexDigits] at h
  | succ m ih =>
    simp only [toHexDigits, List.mem_append, List.mem_singleton] at h
    rcases h with h | h
    · exact ih h
    · exact ⟨n % 16, Nat.mod_lt n (by norm_num), h⟩

theorem parseHexDigits_toHexDigits {n : Nat} (h : n < 16 ^ 8) :
    parseHexDigits (toHexDigits 8 n) = some n := by
  have hlen : (toHexDigits 8 n).length = 8 := toHexDigits_length 8 n
  have hx := parseHexAux_toHexDigits 8 0 n h
  unfold parseHexDigits
  match he : toHexDigits 8 n with
  | [] => rw [he] at hlen; simp at hlen
  | c :: cs => rw [he] at hx; simpa using hx

/-- `int(·, 16)` inverts the 8-digit hex rendering of any `n < 2 ^ 32`. -/
theorem int16_toHexDigits {n : Nat} (h : n < 2 ^ 32) :
    int16 (toHexDigits 8 n) = some n := by
  have h16 : n < 16 ^ 8 := by norm_num at h ⊢; omega
  have hparse := parseHexDigits_toHexDigits h16
  have hlen := toHexDigits_length 8 n
  rcases he : toHexDigits 8 n with _ | ⟨c₀, _ | ⟨c₁, rest⟩⟩
  · rw [he] at hlen; simp at hlen
  · rw [he] at hlen; simp at hlen
  · have hc : c₁ ∈ toHexDigits 8 n := by rw [he]; simp
    rcases toHexDigits_mem hc with ⟨d, hd, hcd⟩
    have hne : ¬(c₀ = '0' ∧ (c₁ = 'x' ∨ c₁ = 'X')) := by
      subst hcd
      interval_cases d <;> simp [hexDigitChar]
    rw [he] at hparse
    simpa [int16, hne] using hparse

/-! ### One-shot split: Python `s.split(d, 1)`

`splitOnceOn d s` is `some (before, after)` split at the first occurrence of
`d`, and `none` when `d` does not occur (in Python the 1-element result then
makes tuple unpacking raise `ValueError`). -/

def splitOnceOn (d : Char) : List Char → Option (List Char × List Char)
  | [] => none
  | c :: cs =>
    if c = d then some ([], cs)
    else
      match splitOnceOn d cs with
      | none => none
      | some p => some (c :: p.1, p.2)

theorem splitOnceOn_eq_none_iff (d : Char) (s : List Char) :
    splitOnceOn d s = none ↔ d ∉ s := by
  induction s with
  | nil => simp [splitOnceOn]
  | cons c cs ih =>
    by_cases hc : c = d
    · subst hc
      simp [splitOnceOn]
    · rw [List.mem_cons]
      cases hs : splitOnceOn d cs with
      | none =>
        rw [hs] at ih
        simp [splitOnceOn, hc, hs, Ne.symm hc, ih.mp rfl]
      | some p =>
        constructor
        · intro h
          simp [splitOnceOn, hc, hs] at h
        · intro h
          push_neg at h
          have : d ∉ cs := h.2
          rw [← ih] at this
          rw [this] at hs
          cases hs

theorem splitOnceOn_append {d : Char} {l₁ : List Char} (l₂ : List Char)
    (h : d ∉ l₁) : splitOnceOn d (l₁ ++ d :: l₂) = some (l₁, l₂) := by
  induction l₁ with
  | nil => simp [splitOnceOn]
  | cons c cs ih =>
    rw [List.mem_cons] at h
    push_neg at h
    have hne : ¬ c = d := fun hcd => h.1 hcd.symm
    simp only [List.cons_append, splitOnceOn, if_neg hne, List.append_eq, ih h.2]

/-! ### The Verifier's hash-shape check

Model of `re.compile(r'^[a-zA-Z0-9]{8}$').match` : exactly 8 alphanumeric
ASCII characters. -/

/-- One character of the class `[a-zA-Z0-9]`. -/
def isAlnumChar (c : Char) : Bool :=
  ('0' ≤ c && c ≤ '9') || ('a' ≤ c && c ≤ 'z') || ('A' ≤ c && c ≤ 'Z')

/-- Model of matching `CRC32_REGEX_PATTERN = r'^[a-zA-Z0-9]{8}$'`. -/
def crc32_regex_match (s : List Char) : Bool :=
  s.length == 8 && s.all isAlnumChar

theorem crc32_regex_match_toHexDigits (n : Nat) :
    crc32_regex_match (toHexDigits 8 n) = true := by
  unfold crc32_regex_match
  rw [Bool.and_eq_true]
  refine ⟨by simp [toHexDigits_length], ?_⟩
  rw [List.all_eq_true]
  intro c hc
  rcases toHexDigits_mem hc with ⟨d, hd, rfl⟩
  interval_cases d <;> rfl

/-! ### Text encodings

`TREE_ENCODINGS = ('UTF-8', 'ISO-8859-1')`.  The codecs are external: UTF-8
decoding is a parameter (`utf8d`) of the development; ISO-8859-1 decoding is
modelled concretely since its semantics is total and trivial: every byte `b`
decodes to the code point `b`. -/

/-- Model of `bytes.decode('ISO-8859-1')` (external codec): byte `b` becomes
code point `b`; total on all byte strings. -/
def latin1Decode (bs : List Byte) : Text :=
  bs.map (fun b => Char.ofNat b.val)

/-- The encodings tried on source tree files, in order. -/
def TREE_ENCODINGS : List String := ["UTF-8", "ISO-8859-1"]

/-- Decode `bs` with one named encoding; `none` models `UnicodeDecodeError`.
`utf8d` is the external UTF-8 decoder. -/
def decodeWithEncoding (utf8d : List Byte → Option Text) (enc : String)
    (bs : List Byte) : Option Text :=
  if enc = "UTF-8" then utf8d bs
  else if enc = "ISO-8859-1" then some (latin1Decode bs)
  else none

/-- The encoding-fallback loop of `_decode_file_content`. -/
def tryEncodings (utf8d : List Byte → Option Text) (bs : List Byte) :
    List String → Option Text
  | [] => none
  | enc :: rest =>
    match decodeWithEncoding utf8d enc bs with
    | some t => some t
    | none => tryEncodings utf8d bs rest

/-- Model of `_decode_file_content`: try each encoding of `TREE_ENCODINGS`
in order; `none` models the final `raise UnicodeDecodeError` branch. -/
def decode_file_content (utf8d : List Byte → Option Text) (bs : List Byte) :
    Option Text :=
  tryEncodings utf8d bs TREE_ENCODINGS

/-- Total decoding used by the File Transformer; the fallback value is
unreachable since `decode_file_content` never returns `none`
(theorem `decode_always_succeeds`). -/
def decodeTotal (utf8d : List Byte → Option Text) (bs : List Byte) : Text :=
  (decode_file_content utf8d bs).getD []

/-! ### Pattern Table (`DomainRegexList`)

Compiled regular expressions live in the external `re` engine: the compiled
pattern type `Pat`, the compiler `re_compile` (`none` models `re.error`) and
the substitution primitive `subn pat repl content = (new_content, count)`
(`pattern.subn(replacement, content)`) are parameters. -/

/-- Errors of `DomainRegexList._compile_regex` (`DomainRegexError`). -/
inductive RegexError
  /-- `Invalid regex line format` : the line has no delimiter. -/
  | invalidFormat (line : List Char)
  /-- `Failed to compile regex pattern` (from `re.error`). -/
  | compileFailed (pat : List Char)
deriving DecidableEq

/-- `DomainRegexList.__init__`: keep the non-empty lines of the rule file
(`filter(len, ...splitlines())`); note that no `#`-comment filtering
happens. -/
def domainRegexListData (lines : List (List Char)) : List (List Char) :=
  lines.filter (fun l => decide (l ≠ []))

/-- `DomainRegexList._compile_regex`: split the line once on
`PATTERN_REPLACE_DELIMITER` into `(pattern, replacement)` (no delimiter
raises `DomainRegexError`), then compile the pattern. -/
def compile_regex {Pat : Type} (re_compile : List Char → Option Pat)
    (line : List Char) : Except RegexError (Pat × List Char) :=
  match splitOnceOn PATTERN_REPLACE_DELIMITER line with
  | none => .error (.invalidFormat line)
  | some (pattern, replacement) =>
    match re_compile pattern with
    | none => .error (.compileFailed pattern)
    | some p => .ok (p, replacement)

/-- `DomainRegexList.regex_pairs`: compile every stored line, in order. -/
def regex_pairs {Pat : Type} (re_compile : List Char → Option Pat)
    (lines : List (List Char)) : Except RegexError (List (Pat × List Char)) :=
  (domainRegexListData lines).mapM (compile_regex re_compile)

/-- `DomainRegexList.search_regex`: the raw pattern strings that are joined
with `'|'` into the combined search expression
(`line.split(PATTERN_REPLACE_DELIMITER, 1)[0]`; a line without delimiter
contributes the whole line). -/
def searchPatternStrings (lines : List (List Char)) : List (List Char) :=
  (domainRegexListData lines).map (fun l =>
    match splitOnceOn PATTERN_REPLACE_DELIMITER l with
    | none => l
    | some p => p.1)

/-- The combined search expression source string: `'|'.join(...)` (the `|`
here is the regex alternation operator). -/
def searchRegexSource (lines : List (List Char)) : List Char :=
  List.intercalate ['|'] (searchPatternStrings lines)

/-- `_apply_regex_substitutions`: apply each pair's `pattern.subn` in order,
accumulating the total substitution count. -/
def apply_regex_substitutions {Pat : Type}
    (subn : Pat → List Char → Text → Text × Nat)
    (pairs : List (Pat × List Char)) (content : Text) : Text × Nat :=
  pairs.foldl
    (fun acc pr =>
      let r := subn pr.1 pr.2 acc.1
      (r.1, acc.2 + r.2))
    (content, 0)

/-! ### File system model

A tree file carries its content bytes, its nanosecond access/modification
timestamps (`st_atime_ns` / `st_mtime_ns`) and whether it is a symlink.
Permission bits (`os.access` / `chmod` in `_substitute_path`) are not
modelled: the write-permission fixup has no effect on content, timestamps
or the cache. -/

structure FileData where
  content : List Byte
  atime_ns : Int
  mtime_ns : Int
  is_symlink : Bool
deriving DecidableEq

/-- A source tree: a map from tree-relative paths to files. -/
def Tree := FPath → Option FileData

/-- Update a single path of a tree. -/
def treeUpdate (t : Tree) (p : FPath) (fd : FileData) : Tree :=
  fun q => if q = p then some fd else t q

/-- Association-list lookup (used for the extracted `orig/` entries). -/
def lookupAssoc {α : Type} : List (FPath × α) → FPath → Option α
  | [], _ => none
  | (k, v) :: rest, q => if k = q then some v else lookupAssoc rest q

/-- `_update_timestamp`: add `TIMESTAMP_DELTA` to both stamps when
`set_new` is true, subtract it when false (the new stamps are computed from
the stats taken before the wrapped operation and installed afterwards). -/
def update_timestamp (set_new : Bool) (atime_ns mtime_ns : Int) : Int × Int :=
  if set_new then (atime_ns + TIMESTAMP_DELTA, mtime_ns + TIMESTAMP_DELTA)
  else (atime_ns - TIMESTAMP_DELTA, mtime_ns - TIMESTAMP_DELTA)

/-! ### File Transformer (`_substitute_path`) -/

/-- `_substitute_path` on the file's data: empty content is the
"no substitution" sentinel; otherwise decode, run all the regex pairs, and
when the total count is positive re-encode as UTF-8 (`encodeUtf8`, the
external codec parameter), overwrite the content, and report
`(crc32 of new bytes, original bytes)`.  Timestamps are adjusted by the
caller's `_update_timestamp` wrapper, not here. -/
def substitute_path {Pat : Type} (subn : Pat → List Char → Text → Text × Nat)
    (utf8d : List Byte → Option Text) (encodeUtf8 : Text → List Byte)
    (pairs : List (Pat × List Char)) (fd : FileData) :
    Option (Nat × List Byte) × FileData :=
  if fd.content = [] then (none, fd)
  else
    let text := decodeTotal utf8d fd.content
    let r := apply_regex_substitutions subn pairs text
    if 0 < r.2 then
      let enc := encodeUtf8 r.1
      (some (crc32 enc, fd.content), { fd with content := enc })
    else (none, fd)

/-! ### Cache Writer (`apply_substitution`) -/

/-- The cache archive in extracted form: the raw lines of
`cache_index.list` and the `orig/` entries (path, pristine bytes). -/
structure CacheArchive where
  index : List (List Char)
  origs : List (FPath × List Byte)
deriving DecidableEq

/-- One line of the content index:
`'{}{}{:08x}\n'.format(relative_path, INDEX_HASH_DELIMITER, crc32_hash)`
(the line model is newline-free; `splitlines` recovers exactly these). -/
def indexLine (relative_path : FPath) (crc32_hash : Nat) : List Char :=
  relative_path ++ INDEX_HASH_DELIMITER :: toHexDigits 8 crc32_hash

/-- The fatal error of the apply loop:
`ValueError('Path "%s" contains the file index hash delimiter "%s"')`,
carrying the offending path. -/
inductive ApplyError
  | valueError (path : FPath)
deriving DecidableEq

/-- The in-progress state of the apply loop: the tree plus the growing
index file content and `orig/` entries of the cache tar. -/
structure ApplyState where
  tree : Tree
  index : List (List Char)
  origs : List (FPath × List Byte)

/-- One iteration of the apply loop after the delimiter check: skip missing
paths and symlinks; otherwise transform the file inside the
`_update_timestamp(set_new=True)` wrapper and, when a substitution happened
and a cache is being built, append the index line and the original-content
entry. -/
def applyStep {Pat : Type} (subn : Pat → List Char → Text → Text × Nat)
    (utf8d : List Byte → Option Text) (encodeUtf8 : Text → List Byte)
    (pairs : List (Pat × List Char)) (useCache : Bool) (st : ApplyState)
    (relative_path : FPath) : ApplyState :=
  match st.tree relative_path with
  | none => st
  | some fd =>
    if fd.is_symlink then st
    else
      let r := substitute_path subn utf8d encodeUtf8 pairs fd
      let ts := update_timestamp true fd.atime_ns fd.mtime_ns
      let fd₂ := { r.2 with atime_ns := ts.1, mtime_ns := ts.2 }
      let st₂ := { st with tree := treeUpdate st.tree relative_path fd₂ }
      match r.1 with
      | none => st₂
      | some (crc32_hash, orig_content) =>
        if useCache then
          { st₂ with
            index := st₂.index ++ [indexLine relative_path crc32_hash],
            origs := st₂.origs ++ [(relative_path, orig_content)] }
        else st₂

/-- The apply loop over the (already length-filtered) substitution list:
an entry containing `INDEX_HASH_DELIMITER` aborts immediately with
`ValueError` (the partial cache is deleted by the caller). -/
def applyLoop {Pat : Type} (subn : Pat → List Char → Text → Text × Nat)
    (utf8d : List Byte → Option Text) (encodeUtf8 : Text → List Byte)
    (pairs : List (Pat × List Char)) (useCache : Bool) :
    List FPath → ApplyState → ApplyState × Option ApplyError
  | [], st => (st, none)
  | relative_path :: rest, st =>
    if INDEX_HASH_DELIMITER ∈ relative_path then
      (st, some (.valueError relative_path))
    else
      applyLoop subn utf8d encodeUtf8 pairs useCache rest
        (applyStep subn utf8d encodeUtf8 pairs useCache st relative_path)

/-- The outcome of `apply_substitution`: the (possibly partially) rewritten
tree, the cache archive (`none` when no cache was requested or when the
partial archive was deleted after a `ValueError`), and the raised error. -/
structure ApplyResult where
  tree : Tree
  cache : Option CacheArchive
  error : Option ApplyError

/-- `apply_substitution` on a tree and the lines of
`domain_substitution.list` (`useCache` is whether a `domainsub_cache` path
was given; the precondition checks on missing files and a pre-existing
cache are filesystem-level and outside this model; the rule file has
already been compiled to `pairs` by `DomainRegexList`). -/
def apply_substitution {Pat : Type} (subn : Pat → List Char → Text → Text × Nat)
    (utf8d : List Byte → Option Text) (encodeUtf8 : Text → List Byte)
    (pairs : List (Pat × List Char)) (files_lines : List FPath) (tree : Tree)
    (useCache : Bool) : ApplyResult :=
  match applyLoop subn utf8d encodeUtf8 pairs useCache
      (files_lines.filter (fun l => decide (l ≠ []))) ⟨tree, [], []⟩ with
  | (st, some e) => ⟨st.tree, none, some e⟩
  | (st, none) =>
    ⟨st.tree, if useCache then some ⟨st.index, st.origs⟩ else none, none⟩

/-! ### Cache Verifier (`_validate_file_index` / `_validate_index_entry`) -/

/-- `_validate_index_entry`: split the entry once on the hash delimiter
(unsplittable lines fail), reject empty parts, a hash failing the CRC32
regex, a missing tree file, a hash that does not parse or does not match
the recomputed checksum, and a duplicate path; on success the path is added
to `cache_index_files`. -/
def validate_index_entry (tree : Tree) (cache_index_files : List FPath)
    (entry : List Char) : Bool × List FPath :=
  match splitOnceOn INDEX_HASH_DELIMITER entry with
  | none => (false, cache_index_files)
  | some (relative_path, file_hash) =>
    if relative_path = [] ∨ file_hash = [] then (false, cache_index_files)
    else if ¬ crc32_regex_match file_hash then (false, cache_index_files)
    else
      match tree relative_path with
      | none => (false, cache_index_files)
      | some fd =>
        match int16 file_hash with
        | none => (false, cache_index_files)
        | some h =>
          if crc32 fd.content ≠ h then (false, cache_index_files)
          else if relative_path ∈ cache_index_files then
            (false, cache_index_files)
          else (true, cache_index_files ++ [relative_path])

/-- Result of `_validate_file_index`: the overall flag, the set of index
paths (in insertion order) and, mirroring the per-entry error logging, one
recorded outcome per scanned entry. -/
structure ValidationResult where
  valid : Bool
  files : List FPath
  results : List Bool
deriving DecidableEq

/-- The Verifier's scan loop: every entry is examined; a failure clears the
flag (`all_hashes_valid = False`) but scanning continues. -/
def validateLoop (tree : Tree) :
    List (List Char) → Bool → List FPath → List Bool → ValidationResult
  | [], flag, files, results => ⟨flag, files, results⟩
  | entry :: rest, flag, files, results =>
    let r := validate_index_entry tree files entry
    validateLoop tree rest (flag && r.1) r.2 (results ++ [r.1])

/-- `_validate_file_index` on the splitlines of the extracted index. -/
def validate_file_index (tree : Tree) (index_lines : List (List Char)) :
    ValidationResult :=
  validateLoop tree index_lines true [] []

/-! ### Revert Engine (`revert_substitution`) -/

/-- Errors of the revert: `KeyError` when the Verifier fails, and the
`FileNotFoundError` of `Path.replace` when an index path has no extracted
original (inconsistent cache). -/
inductive RevertError
  | keyError
  | fileNotFound (path : FPath)
deriving DecidableEq

/-- The replacement loop: for each validated index path, move the extracted
original over the substituted file inside the
`_update_timestamp(set_new=False)` wrapper (the stats are taken before the
move, the adjusted stamps installed after it — also, by `finally`, when the
move itself fails).  A tree path that cannot be `stat`-ed is replaced with
extraction-time metadata (modelled as zero stamps); this branch is
unreachable after successful validation. -/
def revertLoop (origs : List (FPath × List Byte)) :
    List FPath → Tree → Tree × Option RevertError
  | [], tree => (tree, none)
  | relative_path :: rest, tree =>
    match lookupAssoc origs relative_path with
    | none =>
      match tree relative_path with
      | none => (tree, some (.fileNotFound relative_path))
      | some fd =>
        let ts := update_timestamp false fd.atime_ns fd.mtime_ns
        (treeUpdate tree relative_path
          { fd with atime_ns := ts.1, mtime_ns := ts.2 },
          some (.fileNotFound relative_path))
    | some orig_content =>
      match tree relative_path with
      | none =>
        revertLoop origs rest
          (treeUpdate tree relative_path ⟨orig_content, 0, 0, false⟩)
      | some fd =>
        let ts := update_timestamp false fd.atime_ns fd.mtime_ns
        revertLoop origs rest
          (treeUpdate tree relative_path ⟨orig_content, ts.1, ts.2, false⟩)

/-- The outcome of `revert_substitution`: the resulting tree, whether the
cache archive file was deleted (`domainsub_cache.unlink()`), and the raised
error. -/
structure RevertResult where
  tree : Tree
  cacheDeleted : Bool
  error : Option RevertError

/-- `revert_substitution` on an (already extracted) cache archive: run the
Verifier over the index and the current tree — on failure raise `KeyError`
with nothing replaced and the archive kept; then move every original over
its substituted file; finally delete the archive iff no extracted `orig/`
entry was left unused (i.e. unreferenced by the validated index). -/
def revert_substitution (cache : CacheArchive) (tree : Tree) : RevertResult :=
  let v := validate_file_index tree cache.index
  if v.valid then
    match revertLoop cache.origs v.files tree with
    | (tree₂, some e) => ⟨tree₂, false, some e⟩
    | (tree₂, none) =>
      let unused := cache.origs.filter (fun o => decide (o.1 ∉ v.files))
      ⟨tree₂, unused.isEmpty, none⟩
  else ⟨tree, false, some .keyError⟩

/-- The paths recorded in a cache archive's content index (first component
of each index line split at the hash delimiter). -/
def indexPathsOf (cache : CacheArchive) : List FPath :=
  cache.index.filterMap (fun l =>
    (splitOnceOn INDEX_HASH_DELIMITER l).map Prod.fst)

/-! ### Concrete models of the external functions

Used to instantiate the parameters (`subn`, `re_compile`, `utf8d`,
`encodeUtf8`) at the concrete inputs of witnesses and counterexamples. -/

/-- A byte from a natural number (mod 256). -/
def mkByte (x : Nat) : Byte := Fin.ofNat x

/-- Strip a literal pattern from the front of a string. -/
def dropPat : List Char → List Char → Option (List Char)
  | [], s => some s
  | _ :: _, [] => none
  | p :: ps, c :: cs => if p = c then dropPat ps cs else none

/-- Fuel-driven leftmost, non-overlapping literal replacement. -/
def subnLitGo (pat rep : List Char) : Nat → Text → Text × Nat
  | 0, s => (s, 0)
  | _ + 1, [] => ([], 0)
  | fuel + 1, c :: cs =>
    match dropPat pat (c :: cs) with
    | some rest =>
      let r := subnLitGo pat rep fuel rest
      (rep ++ r.1, r.2 + 1)
    | none =>
      let r := subnLitGo pat rep fuel cs
      (c :: r.1, r.2)

/-- Model of `pattern.subn(replacement, content)` (external `re` engine)
restricted to nonempty literal patterns and literal replacements: replace
each leftmost non-overlapping occurrence, returning the new text and the
count.  The empty pattern is outside this model (left unchanged). -/
def subnLit (pat rep : List Char) (content : Text) : Text × Nat :=
  if pat = [] then (content, 0) else subnLitGo pat rep content.length content

/-- Model of `re.compile` (external) for patterns known to compile: every
pattern used by the concrete witnesses is a valid regex. -/
def reCompileTotal (pat : List Char) : Option (List Char) := some pat

/-- Model of UTF-8 decoding (external codec) on the ASCII subset: exact on
pure-ASCII byte strings; other inputs are conservatively rejected (the
File Transformer then falls back to ISO-8859-1).  The concrete witness
file contents are all ASCII. -/
def utf8AsciiDecode (bs : List Byte) : Option Text :=
  if bs.all (fun b => decide (b.val < 128)) then
    some (bs.map (fun b => Char.ofNat b.val))
  else none

/-- Model of `str.encode('UTF-8')` (external codec): the standard UTF-8
byte sequence of each code point. -/
def utf8EncodeChar (c : Char) : List Byte :=
  let n := c.toNat
  if n < 0x80 then [mkByte n]
  else if n < 0x800 then [mkByte (0xC0 + n / 64), mkByte (0x80 + n % 64)]
  else if n < 0x10000 then
    [mkByte (0xE0 + n / 4096), mkByte (0x80 + (n / 64) % 64),
     mkByte (0x80 + n % 64)]
  else
    [mkByte (0xF0 + n / 262144), mkByte (0x80 + (n / 4096) % 64),
     mkByte (0x80 + (n / 64) % 64), mkByte (0x80 + n % 64)]

/-- UTF-8 encoding of a text. -/
def utf8Encode (t : Text) : List Byte := (t.map utf8EncodeChar).flatten

/-! ### Claim C10 — decoding always succeeds -/

/-- **C10** (confirmed).  For every byte string and every UTF-8 decoder,
`_decode_file_content` succeeds: the ISO-8859-1 fallback decodes any byte
sequence, so the `'unable to decode'` error branch (`none`) is unreachable
and a decode error can never be raised for any file content. -/
theorem decode_file_content_always_succeeds
    (utf8d : List Byte → Option Text) (bs : List Byte) :
    ∃ t, decode_file_content utf8d bs = some t := by
  cases h : utf8d bs with
  | some t =>
    exact ⟨t, by
      simp [decode_file_content, TREE_ENCODINGS, tryEncodings,
        decodeWithEncoding, h]⟩
  | none =>
    exact ⟨latin1Decode bs, by
      simp [decode_file_content, TREE_ENCODINGS, tryEncodings,
        decodeWithEncoding, h]⟩

/-! ### Claim C9 — the timestamp delta -/

/-- **C9 counterexample.**  The claim reads the delta as "≈31.7 years"
(`10⁹` seconds): false.  `TIMESTAMP_DELTA` is `10⁹` *nanoseconds*, which is
less than one year's worth of nanoseconds (indeed exactly one second), and
is not `10⁹` seconds expressed in nanoseconds. -/
theorem timestamp_delta_not_31_years :
    TIMESTAMP_DELTA = 10 ^ 9 ∧
    TIMESTAMP_DELTA < 31536000 * NS_PER_SECOND ∧
    TIMESTAMP_DELTA ≠ 10 ^ 9 * NS_PER_SECOND := by
  refine ⟨by norm_num [TIMESTAMP_DELTA], ?_, ?_⟩
  · norm_num [TIMESTAMP_DELTA, NS_PER_SECOND]
  · norm_num [TIMESTAMP_DELTA, NS_PER_SECOND]

/-- **C9** (corrected).  Around each file transform during apply the stored
access/modification timestamps are adjusted forward by the fixed delta
`TIMESTAMP_DELTA = 10⁹` nanoseconds — i.e. exactly one second, not ~31.7
years — and during revert the same fixed delta is subtracted. -/
theorem timestamp_delta_one_second :
    (∀ a m : Int, update_timestamp true a m =
      (a + TIMESTAMP_DELTA, m + TIMESTAMP_DELTA)) ∧
    (∀ a m : Int, update_timestamp false a m =
      (a - TIMESTAMP_DELTA, m - TIMESTAMP_DELTA)) ∧
    TIMESTAMP_DELTA = 1 * NS_PER_SECOND := by
  refine ⟨fun a m => rfl, fun a m => rfl, ?_⟩
  norm_num [TIMESTAMP_DELTA, NS_PER_SECOND]

/-! ### Claim C7 — the Verifier scans the whole index -/

theorem validateLoop_spec (tree : Tree) :
    ∀ (lines : List (List Char)) (flag : Bool) (files : List FPath)
      (rs : List Bool),
      ∃ new : List Bool,
        (validateLoop tree lines flag files rs).valid = (flag && new.all id) ∧
        (validateLoop tree lines flag files rs).results = rs ++ new ∧
        new.length = lines.length := by
  intro lines
  induction lines with
  | nil =>
    intro flag files rs
    exact ⟨[], by simp [validateLoop]⟩
  | cons entry rest ih =>
    intro flag files rs
    obtain ⟨new, h₁, h₂, h₃⟩ :=
      ih (flag && (validate_index_entry tree files entry).1)
        (validate_index_entry tree files entry).2
        (rs ++ [(validate_index_entry tree files entry).1])
    refine ⟨(validate_index_entry tree files entry).1 :: new, ?_, ?_, ?_⟩
    · simpa [validateLoop, Bool.and_assoc] using h₁
    · simpa [validateLoop] using h₂
    · simp [h₃]

/-- **C7** (confirmed).  The Cache Verifier examines all index entries even
after one fails: it records one outcome per entry (the failure log),
scanning every entry of the index, and its overall verdict is the
conjunction of all recorded outcomes — overall failure is reported only
after the full index has been scanned, never by stopping at the first
invalid entry. -/
theorem verifier_scans_all_entries (tree : Tree) (index_lines : List (List Char)) :
    (validate_file_index tree index_lines).results.length = index_lines.length ∧
    (validate_file_index tree index_lines).valid =
      (validate_file_index tree index_lines).results.all id ∧
    ((validate_file_index tree index_lines).valid = false ↔
      false ∈ (validate_file_index tree index_lines).results) := by
  obtain ⟨new, h₁, h₂, h₃⟩ := validateLoop_spec tree index_lines true [] []
  unfold validate_file_index
  rw [h₁, h₂]
  simp only [List.nil_append, Bool.true_and]
  refine ⟨h₃, by trivial, ?_⟩
  constructor
  · intro h
    rcases List.all_eq_false.mp h with ⟨b, hb, hbf⟩
    simpa [show b = false by simpa using hbf] using hb
  · intro h
    exact List.all_eq_false.mpr ⟨false, h, by simp⟩

/-! ### Claims C5 and C6 — rule-file parsing -/

/-- **C5 counterexample.**  A rule line beginning with `#` is *not*
excluded: on the one-line rule file `"#a"` the Pattern Table produces one
(pattern, replacement) pair — empty pattern, replacement `"a"` — and the
combined search expression receives that empty alternative (here the whole
combined source is the empty pattern). -/
theorem hash_line_not_comment_cex :
    regex_pairs reCompileTotal [['#', 'a']] = .ok [(([] : List Char), ['a'])] ∧
    regex_pairs reCompileTotal [['#', 'a']] ≠ .ok [] ∧
    searchPatternStrings [['#', 'a']] = [[]] ∧
    searchRegexSource [['#', 'a']] = [] := by
  refine ⟨rfl, ?_, rfl, rfl⟩
  intro h
  rw [show regex_pairs reCompileTotal [['#', 'a']] =
    .ok [(([] : List Char), ['a'])] from rfl] at h
  simp at h

/-- **C5** (corrected).  `DomainRegexList` performs no comment filtering:
a non-empty rule line beginning with `#` survives `__init__`'s
length-filter, is split at its first character (the delimiter *is* `#`),
and contributes a pair whose pattern is the empty string and whose
replacement is the rest of the line; its contribution to the combined
search expression is that empty pattern. -/
theorem hash_line_contributes {Pat : Type} (re_compile : List Char → Option Pat)
    (rest : List Char) (p : Pat) (hc : re_compile [] = some p)
    (lines : List (List Char)) (hmem : ('#' :: rest) ∈ lines) :
    ('#' :: rest) ∈ domainRegexListData lines ∧
    compile_regex re_compile ('#' :: rest) = .ok (p, rest) ∧
    splitOnceOn PATTERN_REPLACE_DELIMITER ('#' :: rest) = some ([], rest) := by
  have hsplit : splitOnceOn PATTERN_REPLACE_DELIMITER ('#' :: rest) =
      some ([], rest) := by
    simp [splitOnceOn, PATTERN_REPLACE_DELIMITER]
  refine ⟨?_, ?_, hsplit⟩
  · unfold domainRegexListData
    rw [List.mem_filter]
    exact ⟨hmem, by simp⟩
  · unfold compile_regex
    rw [hsplit]
    simp only []
    rw [hc]

/-- **C5 witness.** -/
theorem hash_line_contributes_witness :
    reCompileTotal [] = some [] ∧ (['#', 'a'] ∈ [['#', 'a']]) ∧
    (['#', 'a'] ∈ domainRegexListData [['#', 'a']] ∧
      compile_regex reCompileTotal ['#', 'a'] = .ok ([], ['a']) ∧
      splitOnceOn PATTERN_REPLACE_DELIMITER ['#', 'a'] = some ([], ['a'])) :=
  ⟨rfl, by simp,
    hash_line_contributes reCompileTotal ['a'] [] rfl [['#', 'a']] (by simp)⟩

/-- **C6 counterexample.**  The non-empty line `"a#b#c"` contains two
(unescaped) delimiter characters — not exactly one — yet Pattern Table
construction does not abort on it: it yields the pair
`(pattern "a", replacement "b#c")`. -/
theorem multi_delimiter_line_not_error_cex :
    (['a', '#', 'b', '#', 'c'].count '#' = 2) ∧
    compile_regex reCompileTotal ['a', '#', 'b', '#', 'c'] =
      .ok (['a'], ['b', '#', 'c']) := by
  exact ⟨by decide, rfl⟩

/-- **C6** (corrected).  A non-empty rule line with *no* delimiter aborts
table construction with `DomainRegexError`; but a line with more than one
delimiter does not abort: `split(delim, 1)` splits at the first delimiter
only, the text before it becoming the pattern and the whole remainder
(further delimiters included) the replacement, failing only if that
pattern fails to compile. -/
theorem rule_line_delimiter_splitting {Pat : Type}
    (re_compile : List Char → Option Pat) (line : List Char) :
    (PATTERN_REPLACE_DELIMITER ∉ line →
      compile_regex re_compile line = .error (.invalidFormat line)) ∧
    (∀ l₁ l₂ p, line = l₁ ++ PATTERN_REPLACE_DELIMITER :: l₂ →
      PATTERN_REPLACE_DELIMITER ∉ l₁ → re_compile l₁ = some p →
      compile_regex re_compile line = .ok (p, l₂)) := by
  constructor
  · intro h
    unfold compile_regex
    rw [(splitOnceOn_eq_none_iff PATTERN_REPLACE_DELIMITER line).mpr h]
  · intro l₁ l₂ p hline h₁ hcomp
    unfold compile_regex
    rw [hline, splitOnceOn_append l₂ h₁]
    simp only []
    rw [hcomp]

/-- **C6 witness.** -/
theorem rule_line_delimiter_splitting_witness :
    compile_regex reCompileTotal ['x'] = .error (.invalidFormat ['x']) ∧
    compile_regex reCompileTotal ['a', '#', 'b', '#', 'c'] =
      .ok (['a'], ['b', '#', 'c']) :=
  ⟨(rule_line_delimiter_splitting reCompileTotal ['x']).1 (by decide),
    (rule_line_delimiter_splitting reCompileTotal
      ['a', '#', 'b', '#', 'c']).2 ['a'] ['b', '#', 'c'] ['a']
      (by decide) (by decide) rfl⟩

/-! ### Claims C3 and C4 — the reserved-delimiter abort -/

theorem applyStep_tree_of_ne {Pat : Type}
    (subn : Pat → List Char → Text → Text × Nat)
    (utf8d : List Byte → Option Text) (encodeUtf8 : Text → List Byte)
    (pairs : List (Pat × List Char)) (useCache : Bool) (st : ApplyState)
    (rel q : FPath) (h : q ≠ rel) :
    (applyStep subn utf8d encodeUtf8 pairs useCache st rel).tree q = st.tree q := by
  unfold applyStep
  cases hfd : st.tree rel with
  | none => rfl
  | some fd =>
    simp only []
    split
    · rfl
    · split
      · simp [treeUpdate, h]
      · split
        · simp [treeUpdate, h]
        · simp [treeUpdate, h]

theorem applyFoldl_tree_of_not_mem {Pat : Type}
    (subn : Pat → List Char → Text → Text × Nat)
    (utf8d : List Byte → Option Text) (encodeUtf8 : Text → List Byte)
    (pairs : List (Pat × List Char)) (useCache : Bool) :
    ∀ (l : List FPath) (st : ApplyState) (q : FPath), q ∉ l →
      (l.foldl (applyStep subn utf8d encodeUtf8 pairs useCache) st).tree q =
        st.tree q := by
  intro l
  induction l with
  | nil => intro st q _; rfl
  | cons rel rest ih =>
    intro st q hq
    rw [List.mem_cons] at hq
    push_neg at hq
    rw [List.foldl_cons, ih _ q hq.2,
      applyStep_tree_of_ne subn utf8d encodeUtf8 pairs useCache st rel q hq.1]

theorem applyLoop_no_delimiter {Pat : Type}
    (subn : Pat → List Char → Text → Text × Nat)
    (utf8d : List Byte → Option Text) (encodeUtf8 : Text → List Byte)
    (pairs : List (Pat × List Char)) (useCache : Bool) :
    ∀ (l : List FPath) (st : ApplyState),
      (∀ e ∈ l, INDEX_HASH_DELIMITER ∉ e) →
      applyLoop subn utf8d encodeUtf8 pairs useCache l st =
        (l.foldl (applyStep subn utf8d encodeUtf8 pairs useCache) st, none) := by
  intro l
  induction l with
  | nil => intro st _; rfl
  | cons rel rest ih =>
    intro st h
    have hrel : INDEX_HASH_DELIMITER ∉ rel := h rel (by simp)
    rw [List.foldl_cons]
    unfold applyLoop
    rw [if_neg hrel]
    exact ih _ (fun e he => h e (by simp [he]))

theorem applyLoop_delimiter_abort {Pat : Type}
    (subn : Pat → List Char → Text → Text × Nat)
    (utf8d : List Byte → Option Text) (encodeUtf8 : Text → List Byte)
    (pairs : List (Pat × List Char)) (useCache : Bool) :
    ∀ (l₁ : List FPath) (bad : FPath) (l₂ : List FPath) (st : ApplyState),
      (∀ e ∈ l₁, INDEX_HASH_DELIMITER ∉ e) → INDEX_HASH_DELIMITER ∈ bad →
      applyLoop subn utf8d encodeUtf8 pairs useCache (l₁ ++ bad :: l₂) st =
        (l₁.foldl (applyStep subn utf8d encodeUtf8 pairs useCache) st,
          some (.valueError bad)) := by
  intro l₁
  induction l₁ with
  | nil =>
    intro bad l₂ st _ hbad
    simp only [List.nil_append, List.foldl_nil]
    unfold applyLoop
    rw [if_pos hbad]
  | cons rel rest ih =>
    intro bad l₂ st h hbad
    have hrel : INDEX_HASH_DELIMITER ∉ rel := h rel (by simp)
    rw [List.cons_append, List.foldl_cons]
    unfold applyLoop
    rw [if_neg hrel]
    exact ih bad l₂ _ (fun e he => h e (by simp [he])) hbad

/-- **C3 counterexample.**  A substitution list whose *second* entry
contains the delimiter: apply aborts with `ValueError`, but the first
entry's file has already been rewritten (content `"a"` became `"b"`), so
the abort does *not* happen before any tree file is mutated. -/
theorem apply_delimiter_no_rollback_cex :
    (apply_substitution subnLit utf8AsciiDecode utf8Encode
        [(['a'], ['b'])] [['p'], ['q', '|']]
        (fun q => if q = ['p'] then some ⟨[mkByte 97], 0, 0, false⟩ else none)
        true).error = some (.valueError ['q', '|']) ∧
    ((apply_substitution subnLit utf8AsciiDecode utf8Encode
        [(['a'], ['b'])] [['p'], ['q', '|']]
        (fun q => if q = ['p'] then some ⟨[mkByte 97], 0, 0, false⟩ else none)
        true).tree ['p']).map FileData.content = some [mkByte 98] ∧
    ((fun q => if q = ['p'] then some ⟨[mkByte 97], 0, 0, false⟩
        else none : Tree) ['p']).map FileData.content = some [mkByte 97] := by
  refine ⟨by decide, by decide, by decide⟩

/-- **C3** (corrected).  An entry containing the internal hash-delimiter
aborts the whole apply operation *at that entry*: the loop stops with
`ValueError` at the first such entry, no entry at or after it is processed,
and every file not named by an earlier list entry is untouched — but files
named by earlier entries may already have been rewritten (the tree is
exactly the prefix-processed tree, with no rollback). -/
theorem apply_delimiter_aborts_at_entry {Pat : Type}
    (subn : Pat → List Char → Text → Text × Nat)
    (utf8d : List Byte → Option Text) (encodeUtf8 : Text → List Byte)
    (pairs : List (Pat × List Char)) (useCache : Bool) (tree : Tree)
    (files_lines l₁ : List FPath) (bad : FPath) (l₂ : List FPath)
    (hsplit : files_lines.filter (fun l => decide (l ≠ [])) = l₁ ++ bad :: l₂)
    (h₁ : ∀ e ∈ l₁, INDEX_HASH_DELIMITER ∉ e)
    (hbad : INDEX_HASH_DELIMITER ∈ bad) :
    (apply_substitution subn utf8d encodeUtf8 pairs files_lines tree
        useCache).error = some (.valueError bad) ∧
    (apply_substitution subn utf8d encodeUtf8 pairs files_lines tree
        useCache).tree =
      (l₁.foldl (applyStep subn utf8d encodeUtf8 pairs useCache)
        ⟨tree, [], []⟩).tree ∧
    (∀ q, q ∉ l₁ →
      (apply_substitution subn utf8d encodeUtf8 pairs files_lines tree
        useCache).tree q = tree q) := by
  have hloop := applyLoop_delimiter_abort subn utf8d encodeUtf8 pairs useCache
    l₁ bad l₂ ⟨tree, [], []⟩ h₁ hbad
  simp only [apply_substitution, hsplit, hloop]
  refine ⟨by trivial, by trivial, ?_⟩
  intro q hq
  exact applyFoldl_tree_of_not_mem subn utf8d encodeUtf8 pairs useCache l₁
    ⟨tree, [], []⟩ q hq

/-- **C3 witness.** -/
theorem apply_delimiter_aborts_at_entry_witness :
    (apply_substitution subnLit utf8AsciiDecode utf8Encode
        [(['a'], ['b'])] [['q', '|'], ['p']]
        (fun q => if q = ['p'] then some ⟨[mkByte 97], 0, 0, false⟩ else none)
        true).error = some (.valueError ['q', '|']) ∧
    (∀ q, q ∉ ([] : List FPath) →
      (apply_substitution subnLit utf8AsciiDecode utf8Encode
        [(['a'], ['b'])] [['q', '|'], ['p']]
        (fun q => if q = ['p'] then some ⟨[mkByte 97], 0, 0, false⟩ else none)
        true).tree q =
      (fun q => if q = ['p'] then
        some ⟨[mkByte 97], 0, 0, false⟩ else none : Tree) q) := by
  have h := apply_delimiter_aborts_at_entry subnLit utf8AsciiDecode utf8Encode
    [(['a'], ['b'])] true
    (fun q => if q = ['p'] then some ⟨[mkByte 97], 0, 0, false⟩ else none)
    [['q', '|'], ['p']] [] ['q', '|'] [['p']] (by decide) (by simp) (by decide)
  exact ⟨h.1, h.2.2⟩

/-- **C4** (confirmed).  When the apply loop meets a substitution-list
entry containing the internal hash-delimiter, it raises a `ValueError`
carrying that path, and when a cache destination was given the
partially-written cache archive is deleted rather than left on disk
(`cache = none`); already-rewritten tree files are not rolled back — the
resulting tree is the prefix-processed tree, not the original. -/
theorem apply_delimiter_valueerror_deletes_cache {Pat : Type}
    (subn : Pat → List Char → Text → Text × Nat)
    (utf8d : List Byte → Option Text) (encodeUtf8 : Text → List Byte)
    (pairs : List (Pat × List Char)) (tree : Tree)
    (files_lines l₁ : List FPath) (bad : FPath) (l₂ : List FPath)
    (hsplit : files_lines.filter (fun l => decide (l ≠ [])) = l₁ ++ bad :: l₂)
    (h₁ : ∀ e ∈ l₁, INDEX_HASH_DELIMITER ∉ e)
    (hbad : INDEX_HASH_DELIMITER ∈ bad) :
    (apply_substitution subn utf8d encodeUtf8 pairs files_lines tree
        true).error = some (.valueError bad) ∧
    (apply_substitution subn utf8d encodeUtf8 pairs files_lines tree
        true).cache = none ∧
    (apply_substitution subn utf8d encodeUtf8 pairs files_lines tree
        true).tree =
      (l₁.foldl (applyStep subn utf8d encodeUtf8 pairs true)
        ⟨tree, [], []⟩).tree := by
  have hloop := applyLoop_delimiter_abort subn utf8d encodeUtf8 pairs true
    l₁ bad l₂ ⟨tree, [], []⟩ h₁ hbad
  simp only [apply_substitution, hsplit, hloop]
  exact ⟨by trivial, by trivial, by trivial⟩

/-- **C4 witness** (the first entry rewrites a file and emits a cache
entry; the second entry's delimiter aborts with the partial archive
deleted and the rewritten file kept). -/
theorem apply_delimiter_valueerror_deletes_cache_witness :
    (apply_substitution subnLit utf8AsciiDecode utf8Encode
        [(['a'], ['b'])] [['p'], ['q', '|']]
        (fun q => if q = ['p'] then some ⟨[mkByte 97], 0, 0, false⟩ else none)
        true).error = some (.valueError ['q', '|']) ∧
    (apply_substitution subnLit utf8AsciiDecode utf8Encode
        [(['a'], ['b'])] [['p'], ['q', '|']]
        (fun q => if q = ['p'] then some ⟨[mkByte 97], 0, 0, false⟩ else none)
        true).cache = none := by
  have h := apply_delimiter_valueerror_deletes_cache subnLit utf8AsciiDecode
    utf8Encode [(['a'], ['b'])]
    (fun q => if q = ['p'] then some ⟨[mkByte 97], 0, 0, false⟩ else none)
    [['p'], ['q', '|']] [['p']] ['q', '|'] [] (by decide) (by decide) (by decide)
  exact ⟨h.1, h.2.1⟩

/-! ### Claim C8 — archive deletion iff no unused originals -/

theorem validateLoop_false_absorb (tree : Tree) :
    ∀ (lines : List (List Char)) (files : List FPath) (rs : List Bool),
      (validateLoop tree lines false files rs).valid = false := by
  intro lines
  induction lines with
  | nil => intro files rs; rfl
  | cons e rest ih =>
    intro files rs
    unfold validateLoop
    simpa [Bool.false_and] using ih _ _

theorem validate_index_entry_cases (tree : Tree) (fs : List FPath)
    (e : List Char) :
    validate_index_entry tree fs e = (false, fs) ∨
    ∃ rel hash, splitOnceOn INDEX_HASH_DELIMITER e = some (rel, hash) ∧
      validate_index_entry tree fs e = (true, fs ++ [rel]) := by
  unfold validate_index_entry
  cases hs : splitOnceOn INDEX_HASH_DELIMITER e with
  | none => exact Or.inl rfl
  | some p =>
    obtain ⟨rel, hash⟩ := p
    simp only []
    split
    · exact Or.inl rfl
    · split
      · exact Or.inl rfl
      · split
        · exact Or.inl rfl
        · split
          · exact Or.inl rfl
          · split
            · exact Or.inl rfl
            · split
              · exact Or.inl rfl
              · exact Or.inr ⟨rel, hash, rfl, rfl⟩

theorem validate_index_entry_true_files (tree : Tree) (fs : List FPath)
    (e : List Char) (h : (validate_index_entry tree fs e).1 = true) :
    ∃ rel hash, splitOnceOn INDEX_HASH_DELIMITER e = some (rel, hash) ∧
      (validate_index_entry tree fs e).2 = fs ++ [rel] := by
  rcases validate_index_entry_cases tree fs e with heq | ⟨rel, hash, hsplit, heq⟩
  · rw [heq] at h
    exact absurd h (by simp)
  · exact ⟨rel, hash, hsplit, by rw [heq]⟩

theorem validateLoop_files_of_valid (tree : Tree) :
    ∀ (lines : List (List Char)) (flag : Bool) (files : List FPath)
      (rs : List Bool),
      (validateLoop tree lines flag files rs).valid = true →
      (validateLoop tree lines flag files rs).files =
        files ++ lines.filterMap
          (fun l => (splitOnceOn INDEX_HASH_DELIMITER l).map Prod.fst) := by
  intro lines
  induction lines with
  | nil => intro flag files rs _; simp [validateLoop]
  | cons e rest ih =>
    intro flag files rs h
    have hstep : validateLoop tree (e :: rest) flag files rs =
        validateLoop tree rest (flag && (validate_index_entry tree files e).1)
          (validate_index_entry tree files e).2
          (rs ++ [(validate_index_entry tree files e).1]) := rfl
    rw [hstep] at h ⊢
    by_cases he : (validate_index_entry tree files e).1 = true
    · obtain ⟨rel, hash, hsplit, hfiles⟩ :=
        validate_index_entry_true_files tree files e he
      rw [List.filterMap_cons, hsplit]
      rw [ih _ _ _ h, hfiles, List.append_assoc]
      rfl
    · have hf : (validate_index_entry tree files e).1 = false := by
        simpa using he
      rw [hf, Bool.and_false] at h
      rw [validateLoop_false_absorb tree rest _ _] at h
      cases h

/-- **C8** (confirmed).  After a revert in which all file replacements
completed (no error raised), the cache archive file is deleted if and only
if every extracted `orig/` entry is referenced by the content index —
equivalently, iff zero files remain in the extracted originals directory
unreferenced by the index; any unused entry makes revert deliberately
retain the archive. -/
theorem archive_deleted_iff_no_unused (cache : CacheArchive) (tree : Tree)
    (h : (revert_substitution cache tree).error = none) :
    ((revert_substitution cache tree).cacheDeleted = true ↔
      ∀ o ∈ cache.origs, o.1 ∈ indexPathsOf cache) := by
  by_cases hv : (validate_file_index tree cache.index).valid = true
  · have hfiles : (validate_file_index tree cache.index).files =
        indexPathsOf cache := by
      have := validateLoop_files_of_valid tree cache.index true [] [] hv
      unfold validate_file_index
      rw [this]
      rfl
    unfold revert_substitution at h ⊢
    rw [if_pos hv] at h ⊢
    rcases hr : revertLoop cache.origs
        (validate_file_index tree cache.index).files tree with ⟨t₂, err⟩
    rw [hr] at h
    cases err with
    | some e => simp at h
    | none =>
      simp only []
      rw [hfiles]
      rw [List.isEmpty_iff, List.filter_eq_nil_iff]
      constructor
      · intro hall o ho
        have := hall o ho
        simpa using this
      · intro hall o ho
        simpa using hall o ho
  · unfold revert_substitution at h
    rw [if_neg hv] at h
    cases h

/-- **C8 witness** : a cache with an unreferenced `orig/` entry reverts
without error and the archive is kept (`cacheDeleted = false`). -/
theorem archive_deleted_iff_no_unused_witness :
    (revert_substitution ⟨[], [(['u'], [mkByte 97])]⟩ (fun _ => none)).error
      = none ∧
    (revert_substitution ⟨[], [(['u'], [mkByte 97])]⟩
      (fun _ => none)).cacheDeleted = false := by
  have h := archive_deleted_iff_no_unused ⟨[], [(['u'], [mkByte 97])]⟩
    (fun _ => none) (by decide)
  refine ⟨by decide, ?_⟩
  by_contra hd
  have hd' : (revert_substitution ⟨[], [(['u'], [mkByte 97])]⟩
      (fun _ => none)).cacheDeleted = true := by
    cases hdec : (revert_substitution ⟨[], [(['u'], [mkByte 97])]⟩
        (fun _ => none)).cacheDeleted
    · exact absurd hdec hd
    · rfl
  have := h.mp hd'
  have hmem := this (['u'], [mkByte 97]) (by simp)
  simp [indexPathsOf] at hmem

/-! ### Machinery for the round-trip (C1) and corruption-detection (C2)
claims -/

/-- The File Transformer either reports "no substitution" and leaves the
data unchanged, or rewrites the content and reports the new content's
checksum together with the pristine original bytes. -/
theorem substitute_path_cases {Pat : Type}
    (subn : Pat → List Char → Text → Text × Nat)
    (utf8d : List Byte → Option Text) (encodeUtf8 : Text → List Byte)
    (pairs : List (Pat × List Char)) (fd : FileData) :
    substitute_path subn utf8d encodeUtf8 pairs fd = (none, fd) ∨
    ∃ newContent, substitute_path subn utf8d encodeUtf8 pairs fd =
      (some (crc32 newContent, fd.content), { fd with content := newContent }) := by
  unfold substitute_path
  split
  · exact Or.inl rfl
  · simp only []
    split
    · exact Or.inr ⟨_, rfl⟩
    · exact Or.inl rfl

/-- Content of a tree path (empty for a missing file). -/
def contentAt (t : Tree) (q : FPath) : List Byte :=
  match t q with
  | some fd => fd.content
  | none => []

/-- The file data of a tree path, defaulting to an empty regular file. -/
def treeGetD (t : Tree) (q : FPath) : FileData :=
  (t q).getD ⟨[], 0, 0, false⟩

/-- A syntactically well-formed, hash-matching, fresh index entry
validates and appends its path to the set. -/
theorem validate_index_entry_ok (tree : Tree) (fs : List FPath) (rel : FPath)
    (h : Nat) (fdc : FileData) (hrel : rel ≠ [])
    (hdel : INDEX_HASH_DELIMITER ∉ rel) (htree : tree rel = some fdc)
    (hcrc : crc32 fdc.content = h) (hmem : rel ∉ fs) :
    validate_index_entry tree fs (indexLine rel h) = (true, fs ++ [rel]) := by
  have hlt : h < 2 ^ 32 := hcrc ▸ crc32_lt fdc.content
  unfold validate_index_entry indexLine
  rw [splitOnceOn_append _ hdel]
  simp only []
  rw [if_neg (by
    push_neg
    refine ⟨hrel, ?_⟩
    intro hnil
    have := toHexDigits_length 8 h
    rw [hnil] at this
    simp at this)]
  rw [if_neg (by
    rw [crc32_regex_match_toHexDigits h]
    simp)]
  rw [htree, int16_toHexDigits hlt]
  simp only []
  rw [if_neg (by
    rw [hcrc]
    simp)]
  rw [if_neg hmem]

/-- An index entry whose recorded hash does not match the tree content's
checksum fails validation under every state of the duplicate-set. -/
theorem validate_index_entry_crc_mismatch (tree : Tree) (rel : FPath)
    (h : Nat) (fdc : FileData) (hrel : rel ≠ [])
    (hdel : INDEX_HASH_DELIMITER ∉ rel) (hlt : h < 2 ^ 32)
    (htree : tree rel = some fdc) (hcrc : crc32 fdc.content ≠ h) :
    ∀ fs, (validate_index_entry tree fs (indexLine rel h)).1 = false := by
  intro fs
  unfold validate_index_entry indexLine
  rw [splitOnceOn_append _ hdel]
  simp only []
  rw [if_neg (by
    push_neg
    refine ⟨hrel, ?_⟩
    intro hnil
    have := toHexDigits_length 8 h
    rw [hnil] at this
    simp at this)]
  rw [if_neg (by
    rw [crc32_regex_match_toHexDigits h]
    simp)]
  rw [htree, int16_toHexDigits hlt]
  simp only []
  rw [if_pos hcrc]

/-- A line that fails validation under every duplicate-set state forces the
whole scan to fail, wherever it sits in the index. -/
theorem validateLoop_false_of_bad_line (tree : Tree) (line : List Char)
    (hbad : ∀ fs, (validate_index_entry tree fs line).1 = false) :
    ∀ (lines : List (List Char)) (flag : Bool) (files : List FPath)
      (rs : List Bool), line ∈ lines →
      (validateLoop tree lines flag files rs).valid = false := by
  intro lines
  induction lines with
  | nil => intro flag files rs hmem; cases hmem
  | cons e rest ih =>
    intro flag files rs hmem
    have hstep : validateLoop tree (e :: rest) flag files rs =
        validateLoop tree rest (flag && (validate_index_entry tree files e).1)
          (validate_index_entry tree files e).2
          (rs ++ [(validate_index_entry tree files e).1]) := rfl
    rw [hstep]
    rcases List.mem_cons.mp hmem with heq | hmem'
    · subst heq
      rw [hbad files, Bool.and_false]
      exact validateLoop_false_absorb tree rest _ _
    · exact ih _ _ _ hmem'

/-- Association lookup over a tabulated map. -/
theorem lookupAssoc_map {α : Type} (f : FPath → α) :
    ∀ (l : List FPath) (q : FPath), q ∈ l →
      lookupAssoc (l.map (fun p => (p, f p))) q = some (f q) := by
  intro l
  induction l with
  | nil => intro q hq; cases hq
  | cons p rest ih =>
    intro q hq
    rw [List.map_cons]
    show (if p = q then some (f p)
      else lookupAssoc (rest.map fun p => (p, f p)) q) = some (f q)
    by_cases hpq : p = q
    · rw [if_pos hpq, hpq]
    · rw [if_neg hpq]
      rcases List.mem_cons.mp hq with heq | hmem
      · exact absurd heq.symm hpq
      · exact ih q hmem

/-- The Verifier accepts an index whose entries are well formed, distinct,
and hash-matching, collecting the paths in order. -/
theorem validateLoop_all_valid (tree : Tree) :
    ∀ (pairs : List (FPath × Nat)) (flag : Bool) (fs : List FPath)
      (rs : List Bool),
      (∀ pr ∈ pairs, pr.1 ≠ [] ∧ INDEX_HASH_DELIMITER ∉ pr.1 ∧
        ∃ fdc, tree pr.1 = some fdc ∧ crc32 fdc.content = pr.2) →
      (pairs.map Prod.fst).Nodup → (∀ pr ∈ pairs, pr.1 ∉ fs) →
      validateLoop tree (pairs.map (fun pr => indexLine pr.1 pr.2)) flag fs rs =
        ⟨flag, fs ++ pairs.map Prod.fst,
          rs ++ List.replicate pairs.length true⟩ := by
  intro pairs
  induction pairs with
  | nil =>
    intro flag fs rs _ _ _
    simp [validateLoop]
  | cons pr rest ih =>
    intro flag fs rs hprops hnodup hdisj
    obtain ⟨hrel, hdel, fdc, htree, hcrc⟩ := hprops pr (by simp)
    have hentry := validate_index_entry_ok tree fs pr.1 pr.2 fdc hrel hdel
      htree hcrc (hdisj pr (by simp))
    rw [List.map_cons]
    have hstep : validateLoop tree
        (indexLine pr.1 pr.2 :: rest.map (fun pr => indexLine pr.1 pr.2))
        flag fs rs =
        validateLoop tree (rest.map (fun pr => indexLine pr.1 pr.2))
          (flag && (validate_index_entry tree fs (indexLine pr.1 pr.2)).1)
          (validate_index_entry tree fs (indexLine pr.1 pr.2)).2
          (rs ++ [(validate_index_entry tree fs (indexLine pr.1 pr.2)).1]) := rfl
    rw [hstep, hentry]
    simp only [Bool.and_true]
    rw [List.map_cons, List.nodup_cons] at hnodup
    rw [ih flag (fs ++ [pr.1]) (rs ++ [true])
      (fun x hx => hprops x (by simp [hx]))
      hnodup.2
      (by
        intro x hx
        rw [List.mem_append]
        push_neg
        refine ⟨fun hmem => (hdisj x (by simp [hx])) hmem, ?_⟩
        intro hmem
        rw [List.mem_singleton] at hmem
        exact hnodup.1 (hmem ▸ List.mem_map_of_mem Prod.fst hx))]
    rw [List.append_assoc, List.append_assoc]
    rfl

/-- The replacement loop of the Revert Engine: on a duplicate-free path
list whose originals all exist and whose tree files all exist, it
completes without error, installs each original's bytes with the
delta-subtracted timestamps, and touches no other path. -/
theorem revertLoop_cons_ok (origs : List (FPath × List Byte)) (p : FPath)
    (rest : List FPath) (tree : Tree) (oc_p : List Byte) (fd : FileData)
    (hlook : lookupAssoc origs p = some oc_p) (htree : tree p = some fd) :
    revertLoop origs (p :: rest) tree =
      revertLoop origs rest (treeUpdate tree p
        ⟨oc_p, fd.atime_ns - TIMESTAMP_DELTA,
          fd.mtime_ns - TIMESTAMP_DELTA, false⟩) := by
  conv_lhs => rw [revertLoop]
  rw [hlook, htree]
  simp [update_timestamp]

theorem revertLoop_restores (origs : List (FPath × List Byte))
    (oc : FPath → List Byte) (fdOf : FPath → FileData) :
    ∀ (qs : List FPath) (tree : Tree), qs.Nodup →
      (∀ q ∈ qs, lookupAssoc origs q = some (oc q) ∧
        tree q = some (fdOf q)) →
      (revertLoop origs qs tree).2 = none ∧
      (∀ q ∈ qs, (revertLoop origs qs tree).1 q =
        some ⟨oc q, (fdOf q).atime_ns - TIMESTAMP_DELTA,
          (fdOf q).mtime_ns - TIMESTAMP_DELTA, false⟩) ∧
      (∀ q, q ∉ qs → (revertLoop origs qs tree).1 q = tree q) := by
  intro qs
  induction qs with
  | nil =>
    intro tree _ _
    exact ⟨rfl, by simp, fun q _ => rfl⟩
  | cons p rest ih =>
    intro tree hnodup hall
    obtain ⟨hlook, htree⟩ := hall p (by simp)
    rw [List.nodup_cons] at hnodup
    have hstep := revertLoop_cons_ok origs p rest tree (oc p) (fdOf p)
      hlook htree
    set tree' : Tree := treeUpdate tree p
      ⟨oc p, (fdOf p).atime_ns - TIMESTAMP_DELTA,
        (fdOf p).mtime_ns - TIMESTAMP_DELTA, false⟩ with htree'
    have hall' : ∀ q ∈ rest, lookupAssoc origs q = some (oc q) ∧
        tree' q = some (fdOf q) := by
      intro q hq
      obtain ⟨h₁, h₂⟩ := hall q (by simp [hq])
      refine ⟨h₁, ?_⟩
      rw [htree']
      unfold treeUpdate
      rw [if_neg (fun hqp => hnodup.1 (by rw [← hqp]; exact hq)), h₂]
    obtain ⟨ih₁, ih₂, ih₃⟩ := ih tree' hnodup.2 hall'
    rw [hstep]
    refine ⟨ih₁, ?_, ?_⟩
    · intro q hq
      rcases List.mem_cons.mp hq with heq | hmem
      · subst heq
        rw [ih₃ q hnodup.1, htree']
        unfold treeUpdate
        rw [if_pos rfl]
      · exact ih₂ q hmem
    · intro q hq
      rw [List.mem_cons] at hq
      push_neg at hq
      rw [ih₃ q hq.2, htree']
      unfold treeUpdate
      rw [if_neg hq.1]

/-- The hash of the *last* index entry recorded for a path (later cache
lines supersede earlier ones for hash checking, since the tree holds the
latest substituted content). -/
def lastHash (pairs : List (FPath × Nat)) (p : FPath) : Option Nat :=
  match pairs with
  | [] => none
  | pr :: rest =>
    match lastHash rest p with
    | some h => some h
    | none => if pr.1 = p then some pr.2 else none

theorem lastHash_append_single (pairs : List (FPath × Nat)) (pr : FPath × Nat)
    (p : FPath) :
    lastHash (pairs ++ [pr]) p =
      if pr.1 = p then some pr.2 else lastHash pairs p := by
  induction pairs with
  | nil => rfl
  | cons x rest ih =>
    show (match lastHash (rest ++ [pr]) p with
      | some h => some h
      | none => if x.1 = p then some x.2 else none) = _
    rw [ih]
    by_cases hp : pr.1 = p
    · rw [if_pos hp, if_pos hp]
    · rw [if_neg hp, if_neg hp]
      rfl

theorem lastHash_isSome_of_mem (p : FPath) :
    ∀ pairs : List (FPath × Nat), p ∈ pairs.map Prod.fst →
      ∃ h, lastHash pairs p = some h := by
  intro pairs
  induction pairs with
  | nil => intro h; cases h
  | cons pr rest ih =>
    intro hmem
    show ∃ h, (match lastHash rest p with
      | some h => some h
      | none => if pr.1 = p then some pr.2 else none) = some h
    cases hl : lastHash rest p with
    | some h => exact ⟨h, rfl⟩
    | none =>
      rw [List.map_cons, List.mem_cons] at hmem
      rcases hmem with heq | hmem'
      · exact ⟨pr.2, by rw [if_pos heq.symm]⟩
      · obtain ⟨h, hh⟩ := ih hmem'
        rw [hh] at hl
        cases hl

theorem lastHash_mem (p : FPath) (h : Nat) :
    ∀ pairs : List (FPath × Nat), lastHash pairs p = some h →
      (p, h) ∈ pairs := by
  intro pairs
  induction pairs with
  | nil => intro hl; cases hl
  | cons pr rest ih =>
    intro hl
    rw [show lastHash (pr :: rest) p = (match lastHash rest p with
      | some h => some h
      | none => if pr.1 = p then some pr.2 else none) from rfl] at hl
    cases hr : lastHash rest p with
    | some h' =>
      rw [hr] at hl
      cases hl
      exact List.mem_cons_of_mem pr (ih hr)
    | none =>
      rw [hr] at hl
      by_cases hp : pr.1 = p
      · rw [if_pos hp] at hl
        cases hl
        have hpr : (p, pr.2) = pr := by rw [← hp]
        rw [hpr]
        exact List.mem_cons_self pr rest
      · rw [if_neg hp] at hl
        cases hl

/-- Invariant of the Cache Writer's loop: every emitted index line has the
shape `path|%08x` with a well-formed path, and the hash recorded by the
*last* line for a path is the checksum of that path's current tree
content. -/
def LastHashInv (st : ApplyState) : Prop :=
  ∃ prs : List (FPath × Nat),
    st.index = prs.map (fun pr => indexLine pr.1 pr.2) ∧
    (∀ pr ∈ prs, pr.1 ≠ [] ∧ INDEX_HASH_DELIMITER ∉ pr.1) ∧
    (∀ p h, lastHash prs p = some h →
      ∃ fd, st.tree p = some fd ∧ crc32 fd.content = h)

theorem applyStep_lastHashInv {Pat : Type}
    (subn : Pat → List Char → Text → Text × Nat)
    (utf8d : List Byte → Option Text) (encodeUtf8 : Text → List Byte)
    (pairs : List (Pat × List Char)) (st : ApplyState) (rel : FPath)
    (hrel : rel ≠ []) (hdel : INDEX_HASH_DELIMITER ∉ rel)
    (hinv : LastHashInv st) :
    LastHashInv (applyStep subn utf8d encodeUtf8 pairs true st rel) := by
  obtain ⟨prs, hidx, hprops, hlast⟩ := hinv
  unfold applyStep
  cases hfd : st.tree rel with
  | none => exact ⟨prs, hidx, hprops, hlast⟩
  | some fd =>
    simp only []
    by_cases hsym : fd.is_symlink = true
    · rw [if_pos hsym]
      exact ⟨prs, hidx, hprops, hlast⟩
    · rw [if_neg hsym]
      rcases substitute_path_cases subn utf8d encodeUtf8 pairs fd with
        hsub | ⟨newC, hsub⟩
      · rw [hsub]
        simp only []
        refine ⟨prs, hidx, hprops, ?_⟩
        intro p h hl
        obtain ⟨fd', hfd', hcrc⟩ := hlast p h hl
        by_cases hp : p = rel
        · subst hp
          rw [hfd] at hfd'
          injection hfd' with hfd'
          refine ⟨⟨fd.content, (update_timestamp true fd.atime_ns fd.mtime_ns).1,
            (update_timestamp true fd.atime_ns fd.mtime_ns).2,
            fd.is_symlink⟩, ?_, ?_⟩
          · show treeUpdate st.tree p _ p = _
            simp [treeUpdate]
          · show crc32 fd.content = h
            rw [hfd']
            exact hcrc
        · refine ⟨fd', ?_, hcrc⟩
          show treeUpdate st.tree rel _ p = some fd'
          simpa [treeUpdate, hp] using hfd'
      · rw [hsub]
        simp only []
        rw [if_pos trivial]
        refine ⟨prs ++ [(rel, crc32 newC)], ?_, ?_, ?_⟩
        · show st.index ++ [indexLine rel (crc32 newC)] = _
          rw [List.map_append, hidx]
          rfl
        · intro pr hpr
          rcases List.mem_append.mp hpr with hm | hm
          · exact hprops pr hm
          · rw [List.mem_singleton] at hm
            rw [hm]
            exact ⟨hrel, hdel⟩
        · intro p h hl
          rw [lastHash_append_single] at hl
          by_cases hp : rel = p
          · subst hp
            rw [if_pos rfl] at hl
            injection hl with hl
            refine ⟨⟨newC, (update_timestamp true fd.atime_ns fd.mtime_ns).1,
              (update_timestamp true fd.atime_ns fd.mtime_ns).2,
              fd.is_symlink⟩, ?_, ?_⟩
            · show treeUpdate st.tree rel _ rel = _
              simp [treeUpdate]
            · show crc32 newC = h
              exact hl
          · rw [if_neg hp] at hl
            obtain ⟨fd', hfd', hcrc⟩ := hlast p h hl
            have hp' : ¬ p = rel := fun hq => hp hq.symm
            refine ⟨fd', ?_, hcrc⟩
            show treeUpdate st.tree rel _ p = some fd'
            simpa [treeUpdate, hp'] using hfd'

theorem applyLoop_lastHashInv {Pat : Type}
    (subn : Pat → List Char → Text → Text × Nat)
    (utf8d : List Byte → Option Text) (encodeUtf8 : Text → List Byte)
    (pairs : List (Pat × List Char)) :
    ∀ (entries : List FPath) (st st' : ApplyState),
      (∀ e ∈ entries, e ≠ []) →
      applyLoop subn utf8d encodeUtf8 pairs true entries st = (st', none) →
      LastHashInv st → LastHashInv st' := by
  intro entries
  induction entries with
  | nil =>
    intro st st' _ hloop hinv
    injection hloop with h₁ _
    rw [← h₁]
    exact hinv
  | cons rel rest ih =>
    intro st st' hne hloop hinv
    unfold applyLoop at hloop
    by_cases hd : INDEX_HASH_DELIMITER ∈ rel
    · rw [if_pos hd] at hloop
      injection hloop with _ h₂
      cases h₂
    · rw [if_neg hd] at hloop
      exact ih _ _ (fun e he => hne e (by simp [he])) hloop
        (applyStep_lastHashInv subn utf8d encodeUtf8 pairs st rel
          (hne rel (by simp)) hd hinv)

theorem apply_substitution_eq {Pat : Type}
    (subn : Pat → List Char → Text → Text × Nat)
    (utf8d : List Byte → Option Text) (encodeUtf8 : Text → List Byte)
    (pairs : List (Pat × List Char)) (files_lines : List FPath) (tree : Tree)
    (useCache : Bool) :
    apply_substitution subn utf8d encodeUtf8 pairs files_lines tree useCache =
      (match applyLoop subn utf8d encodeUtf8 pairs useCache
          (files_lines.filter (fun l => decide (l ≠ []))) ⟨tree, [], []⟩ with
        | (st, some e) => ⟨st.tree, none, some e⟩
        | (st, none) => ⟨st.tree,
            if useCache then some ⟨st.index, st.origs⟩ else none, none⟩) := rfl

theorem apply_substitution_success {Pat : Type}
    (subn : Pat → List Char → Text → Text × Nat)
    (utf8d : List Byte → Option Text) (encodeUtf8 : Text → List Byte)
    (pairs : List (Pat × List Char)) (files_lines : List FPath) (tree : Tree)
    (h : (apply_substitution subn utf8d encodeUtf8 pairs files_lines tree
      true).error = none) :
    ∃ st', applyLoop subn utf8d encodeUtf8 pairs true
        (files_lines.filter (fun l => decide (l ≠ []))) ⟨tree, [], []⟩ =
        (st', none) ∧
      apply_substitution subn utf8d encodeUtf8 pairs files_lines tree true =
        ⟨st'.tree, some ⟨st'.index, st'.origs⟩, none⟩ := by
  cases hx : applyLoop subn utf8d encodeUtf8 pairs true
      (files_lines.filter (fun l => decide (l ≠ []))) ⟨tree, [], []⟩ with
  | mk st' err =>
    have happ : apply_substitution subn utf8d encodeUtf8 pairs files_lines
        tree true =
        (match (st', err) with
          | (st, some e) => ⟨st.tree, none, some e⟩
          | (st, none) =>
            ⟨st.tree, if true then some ⟨st.index, st.origs⟩ else none,
              none⟩) := by
      rw [apply_substitution_eq, hx]
    cases err with
    | some e =>
      rw [happ] at h
      simp at h
    | none =>
      refine ⟨st', rfl, ?_⟩
      rw [happ]
      rfl

/-- Parsing the paths back out of well-formed index lines. -/
theorem filterMap_indexLines (prs : List (FPath × Nat))
    (hdel : ∀ pr ∈ prs, INDEX_HASH_DELIMITER ∉ pr.1) :
    (prs.map (fun pr => indexLine pr.1 pr.2)).filterMap
      (fun l => (splitOnceOn INDEX_HASH_DELIMITER l).map Prod.fst) =
      prs.map Prod.fst := by
  induction prs with
  | nil => rfl
  | cons pr rest ih =>
    rw [List.map_cons, List.filterMap_cons]
    rw [show splitOnceOn INDEX_HASH_DELIMITER (indexLine pr.1 pr.2) =
      some (pr.1, toHexDigits 8 pr.2) from
      splitOnceOn_append _ (hdel pr (by simp))]
    rw [ih (fun x hx => hdel x (by simp [hx]))]
    rfl

/-! ### Claim C2 — integrity failures abort revert with nothing touched -/

/-- **C2** (confirmed).  (1) Whenever the Cache Verifier fails during
revert — any combination of malformed index lines, non-hex or mismatching
hashes, missing referenced files, or duplicate paths makes
`_validate_file_index` return false — `revert_substitution` raises the
integrity `KeyError` before any tree file is replaced, leaving every tree
file and the cache archive unchanged.  (2) In particular, mutating any
single byte of a substituted tree file after a successful cache-building
apply causes the subsequent revert to fail exactly this way, with the tree
and the archive unchanged. -/
theorem revert_integrity_failure_safe :
    (∀ (cache : CacheArchive) (tree : Tree),
      (validate_file_index tree cache.index).valid = false →
        (revert_substitution cache tree).error = some .keyError ∧
        (∀ q, (revert_substitution cache tree).tree q = tree q) ∧
        (revert_substitution cache tree).cacheDeleted = false) ∧
    (∀ (Pat : Type) (subn : Pat → List Char → Text → Text × Nat)
      (utf8d : List Byte → Option Text) (encodeUtf8 : Text → List Byte)
      (pairs : List (Pat × List Char)) (files_lines : List FPath)
      (tree : Tree) (c : CacheArchive) (ar : ApplyResult),
      apply_substitution subn utf8d encodeUtf8 pairs files_lines tree true = ar →
      ar.error = none → ar.cache = some c →
      ∀ p : FPath, p ∈ indexPathsOf c →
      ∀ fd : FileData, ar.tree p = some fd →
      ∀ (pre suf : List Byte) (b₁ b₂ : Byte),
        fd.content = pre ++ b₁ :: suf → b₂ ≠ b₁ →
      ∀ tree₂ : Tree,
        tree₂ = treeUpdate ar.tree p { fd with content := pre ++ b₂ :: suf } →
        (revert_substitution c tree₂).error = some .keyError ∧
        (∀ q, (revert_substitution c tree₂).tree q = tree₂ q) ∧
        (revert_substitution c tree₂).cacheDeleted = false) := by
  constructor
  · intro cache tree hval
    unfold revert_substitution
    rw [if_neg (by rw [hval]; simp)]
    exact ⟨rfl, fun q => rfl, rfl⟩
  · intro Pat subn utf8d encodeUtf8 pairs files_lines tree c ar har herr
      hcache p hp fd hfd pre suf b₁ b₂ hcontent hb tree₂ htree₂
    obtain ⟨st', hloop, happ⟩ := apply_substitution_success subn utf8d
      encodeUtf8 pairs files_lines tree (by rw [har]; exact herr)
    have har' : ar = ⟨st'.tree, some ⟨st'.index, st'.origs⟩, none⟩ := by
      rw [← har, happ]
    have hinv : LastHashInv st' := by
      refine applyLoop_lastHashInv subn utf8d encodeUtf8 pairs _ _ _
        ?_ hloop ⟨[], rfl, by simp, fun p h hl => Option.noConfusion hl⟩
      intro e he
      exact of_decide_eq_true (List.mem_filter.mp he).2
    obtain ⟨prs, hidx, hprops, hlast⟩ := hinv
    have hc : c = ⟨st'.index, st'.origs⟩ := by
      rw [har'] at hcache
      injection hcache with e
      exact e.symm
    have hidxpaths : indexPathsOf c = prs.map Prod.fst := by
      rw [hc]
      show List.filterMap _ st'.index = _
      rw [hidx]
      exact filterMap_indexLines prs (fun pr hpr => (hprops pr hpr).2)
    rw [hidxpaths] at hp
    obtain ⟨h, hlash⟩ := lastHash_isSome_of_mem p prs hp
    obtain ⟨fd₀, hfd₀, hcrc₀⟩ := hlast p h hlash
    have hfdeq : fd = fd₀ := by
      have hthis : ar.tree p = some fd₀ := by
        rw [har']
        exact hfd₀
      rw [hfd] at hthis
      injection hthis with e
    have hpair := lastHash_mem p h prs hlash
    have hline : indexLine p h ∈ c.index := by
      rw [hc]
      show indexLine p h ∈ st'.index
      rw [hidx]
      exact List.mem_map_of_mem _ hpair
    obtain ⟨hpne, hpdel⟩ := hprops (p, h) hpair
    have htree₂p : tree₂ p = some { fd with content := pre ++ b₂ :: suf } := by
      rw [htree₂]
      unfold treeUpdate
      rw [if_pos rfl]
    have hcrcfd : crc32 (pre ++ b₁ :: suf) = h := by
      rw [← hcontent, hfdeq]
      exact hcrc₀
    have hne : crc32 (pre ++ b₂ :: suf) ≠ h := by
      intro hEq
      exact crc32_single_byte_ne hb (hEq.trans hcrcfd.symm)
    have hlth : h < 2 ^ 32 := by
      rw [← hcrc₀]
      exact crc32_lt fd₀.content
    have hbadline := validate_index_entry_crc_mismatch tree₂ p h
      { fd with content := pre ++ b₂ :: suf } hpne hpdel hlth htree₂p hne
    have hvalfalse : (validate_file_index tree₂ c.index).valid = false :=
      validateLoop_false_of_bad_line tree₂ (indexLine p h) hbadline
        c.index true [] [] hline
    unfold revert_substitution
    rw [if_neg (by rw [hvalfalse]; simp)]
    exact ⟨rfl, fun q => rfl, rfl⟩

/-- **C2 witness** : a concrete instance of each part.  Part 2: the tree
`{p ↦ "a"}` is applied with the rule `a#b` and list `p`; the substituted
byte `b` is then mutated to `c`; revert fails with `KeyError` leaving the
mutated tree and the archive unchanged.  Part 1: an archive whose only
index line has no delimiter fails validation on an empty tree. -/
theorem revert_integrity_failure_safe_witness :
    ((revert_substitution
        ⟨[indexLine ['p'] (crc32 [mkByte 98])], [(['p'], [mkByte 97])]⟩
        (treeUpdate
          (apply_substitution subnLit utf8AsciiDecode utf8Encode
            [(['a'], ['b'])] [['p']]
            (fun q => if q = ['p'] then some ⟨[mkByte 97], 0, 0, false⟩
              else none) true).tree
          ['p'] ⟨[mkByte 99], TIMESTAMP_DELTA, TIMESTAMP_DELTA, false⟩)).error
      = some .keyError ∧
     (revert_substitution
        ⟨[indexLine ['p'] (crc32 [mkByte 98])], [(['p'], [mkByte 97])]⟩
        (treeUpdate
          (apply_substitution subnLit utf8AsciiDecode utf8Encode
            [(['a'], ['b'])] [['p']]
            (fun q => if q = ['p'] then some ⟨[mkByte 97], 0, 0, false⟩
              else none) true).tree
          ['p'] ⟨[mkByte 99], TIMESTAMP_DELTA, TIMESTAMP_DELTA,
            false⟩)).cacheDeleted = false) ∧
    (revert_substitution ⟨[['x']], []⟩ (fun _ => none)).error =
      some .keyError := by
  refine ⟨?_, ?_⟩
  · have h := revert_integrity_failure_safe.2 (List Char) subnLit
      utf8AsciiDecode utf8Encode [(['a'], ['b'])] [['p']]
      (fun q => if q = ['p'] then some ⟨[mkByte 97], 0, 0, false⟩ else none)
      ⟨[indexLine ['p'] (crc32 [mkByte 98])], [(['p'], [mkByte 97])]⟩
      (apply_substitution subnLit utf8AsciiDecode utf8Encode
        [(['a'], ['b'])] [['p']]
        (fun q => if q = ['p'] then some ⟨[mkByte 97], 0, 0, false⟩ else none)
        true)
      rfl (by decide) (by decide) ['p'] (by decide)
      ⟨[mkByte 98], TIMESTAMP_DELTA, TIMESTAMP_DELTA, false⟩ (by decide)
      [] [] (mkByte 98) (mkByte 99) (by decide) (by decide)
      (treeUpdate
        (apply_substitution subnLit utf8AsciiDecode utf8Encode
          [(['a'], ['b'])] [['p']]
          (fun q => if q = ['p'] then some ⟨[mkByte 97], 0, 0, false⟩
            else none) true).tree
        ['p'] ⟨[mkByte 99], TIMESTAMP_DELTA, TIMESTAMP_DELTA, false⟩)
      rfl
    exact ⟨h.1, h.2.2⟩
  · exact (revert_integrity_failure_safe.1 ⟨[['x']], []⟩ (fun _ => none)
      (by decide)).1

/-! ### Claim C1 — the apply/revert round trip -/

theorem nodup_append_single {α : Type} {l : List α} {a : α} (h : l.Nodup)
    (ha : a ∉ l) : (l ++ [a]).Nodup := by
  induction l with
  | nil => simp
  | cons b t ih =>
    rw [List.nodup_cons] at h
    rw [List.mem_cons] at ha
    push_neg at ha
    rw [List.cons_append, List.nodup_cons]
    refine ⟨?_, ih h.2 ha.2⟩
    rw [List.mem_append, List.mem_singleton]
    push_neg
    exact ⟨h.1, fun hb => ha.1 hb.symm⟩

/-- Invariant of the Cache Writer's loop on a duplicate-free substitution
list: unprocessed paths are untouched, and every recorded index entry has a
matching original-content entry (holding the pre-apply bytes), a hash equal
to the checksum of the path's current content, and timestamps shifted
forward by exactly `TIMESTAMP_DELTA` from the pre-apply ones. -/
def RoundTripInv (tree0 : Tree) (processed : List FPath) (st : ApplyState) :
    Prop :=
  (∀ q, q ∉ processed → st.tree q = tree0 q) ∧
  ∃ prs : List (FPath × Nat),
    st.index = prs.map (fun pr => indexLine pr.1 pr.2) ∧
    st.origs = prs.map (fun pr => (pr.1, contentAt tree0 pr.1)) ∧
    (prs.map Prod.fst).Nodup ∧
    ∀ pr ∈ prs, pr.1 ≠ [] ∧ INDEX_HASH_DELIMITER ∉ pr.1 ∧ pr.1 ∈ processed ∧
      ∃ fd₀, tree0 pr.1 = some fd₀ ∧ fd₀.is_symlink = false ∧
      ∃ fdc, st.tree pr.1 = some fdc ∧ crc32 fdc.content = pr.2 ∧
        fdc.atime_ns = fd₀.atime_ns + TIMESTAMP_DELTA ∧
        fdc.mtime_ns = fd₀.mtime_ns + TIMESTAMP_DELTA

theorem applyStep_roundTripInv {Pat : Type}
    (subn : Pat → List Char → Text → Text × Nat)
    (utf8d : List Byte → Option Text) (encodeUtf8 : Text → List Byte)
    (pairs : List (Pat × List Char)) (tree0 : Tree) (processed : List FPath)
    (st : ApplyState) (rel : FPath) (hrel : rel ≠ [])
    (hdel : INDEX_HASH_DELIMITER ∉ rel) (hproc : rel ∉ processed)
    (hinv : RoundTripInv tree0 processed st) :
    RoundTripInv tree0 (processed ++ [rel])
      (applyStep subn utf8d encodeUtf8 pairs true st rel) := by
  obtain ⟨hun, prs, hidx, horig, hnodup, hprops⟩ := hinv
  have hmono : ∀ q, q ∈ processed → q ∈ processed ++ [rel] := by
    intro q hq
    rw [List.mem_append]
    exact Or.inl hq
  have hnotrel : ∀ pr, pr ∈ prs → pr.1 ≠ rel := by
    intro pr hpr heq
    exact hproc (heq ▸ (hprops pr hpr).2.2.1)
  have hunext : ∀ (t : Tree), (∀ q, q ∉ processed → t q = tree0 q) →
      (∀ q, q ∉ processed ++ [rel] → t q = tree0 q) := by
    intro t ht q hq
    rw [List.mem_append] at hq
    push_neg at hq
    exact ht q hq.1
  unfold applyStep
  cases hfd : st.tree rel with
  | none => exact ⟨hunext st.tree hun, prs, hidx, horig, hnodup, fun pr hpr =>
      let ⟨h₁, h₂, h₃, rest⟩ := hprops pr hpr
      ⟨h₁, h₂, hmono pr.1 h₃, rest⟩⟩
  | some fd =>
    have htree0rel : tree0 rel = some fd := by
      rw [← hun rel hproc]
      exact hfd
    simp only []
    by_cases hsym : fd.is_symlink = true
    · rw [if_pos hsym]
      exact ⟨hunext st.tree hun, prs, hidx, horig, hnodup, fun pr hpr =>
        let ⟨h₁, h₂, h₃, rest⟩ := hprops pr hpr
        ⟨h₁, h₂, hmono pr.1 h₃, rest⟩⟩
    · rw [if_neg hsym]
      rcases substitute_path_cases subn utf8d encodeUtf8 pairs fd with
        hsub | ⟨newC, hsub⟩
      · rw [hsub]
        simp only []
        refine ⟨?_, prs, hidx, horig, hnodup, ?_⟩
        · intro q hq
          rw [List.mem_append] at hq
          push_neg at hq
          show treeUpdate st.tree rel _ q = tree0 q
          unfold treeUpdate
          rw [if_neg (by
            intro heq
            exact hq.2 (by rw [heq]; exact List.mem_singleton.mpr rfl))]
          exact hun q hq.1
        · intro pr hpr
          obtain ⟨h₁, h₂, h₃, fd₀, hfd₀, hsym₀, fdc, hfdc, hcrc, hat, hmt⟩ :=
            hprops pr hpr
          refine ⟨h₁, h₂, hmono pr.1 h₃, fd₀, hfd₀, hsym₀, fdc, ?_, hcrc,
            hat, hmt⟩
          show treeUpdate st.tree rel _ pr.1 = some fdc
          unfold treeUpdate
          rw [if_neg (hnotrel pr hpr)]
          exact hfdc
      · rw [hsub]
        simp only []
        rw [if_pos trivial]
        refine ⟨?_, prs ++ [(rel, crc32 newC)], ?_, ?_, ?_, ?_⟩
        · intro q hq
          rw [List.mem_append] at hq
          push_neg at hq
          show treeUpdate st.tree rel _ q = tree0 q
          unfold treeUpdate
          rw [if_neg (by
            intro heq
            exact hq.2 (by rw [heq]; exact List.mem_singleton.mpr rfl))]
          exact hun q hq.1
        · show st.index ++ [indexLine rel (crc32 newC)] = _
          rw [List.map_append, hidx]
          rfl
        · show st.origs ++ [(rel, fd.content)] = _
          rw [List.map_append, horig]
          have hco : contentAt tree0 rel = fd.content := by
            unfold contentAt
            rw [htree0rel]
          rw [← hco]
          rfl
        · rw [List.map_append]
          exact nodup_append_single hnodup (by
            intro hm
            obtain ⟨pr, hpr, hpr1⟩ := List.mem_map.mp hm
            exact hnotrel pr hpr hpr1)
        · intro pr hpr
          rcases List.mem_append.mp hpr with hm | hm
          · obtain ⟨h₁, h₂, h₃, fd₀, hfd₀, hsym₀, fdc, hfdc, hcrc, hat, hmt⟩ :=
              hprops pr hm
            refine ⟨h₁, h₂, hmono pr.1 h₃, fd₀, hfd₀, hsym₀, fdc, ?_, hcrc,
              hat, hmt⟩
            show treeUpdate st.tree rel _ pr.1 = some fdc
            unfold treeUpdate
            rw [if_neg (hnotrel pr hm)]
            exact hfdc
          · rw [List.mem_singleton] at hm
            subst hm
            refine ⟨hrel, hdel, by
              rw [List.mem_append, List.mem_singleton]
              exact Or.inr rfl, fd, htree0rel,
              Bool.not_eq_true fd.is_symlink ▸ hsym,
              ⟨newC, (update_timestamp true fd.atime_ns fd.mtime_ns).1,
                (update_timestamp true fd.atime_ns fd.mtime_ns).2,
                fd.is_symlink⟩, ?_, ?_, ?_, ?_⟩
            · show treeUpdate st.tree rel _ rel = _
              simp [treeUpdate]
            · show crc32 newC = crc32 newC
              rfl
            · show (update_timestamp true fd.atime_ns fd.mtime_ns).1 =
                fd.atime_ns + TIMESTAMP_DELTA
              rfl
            · show (update_timestamp true fd.atime_ns fd.mtime_ns).2 =
                fd.mtime_ns + TIMESTAMP_DELTA
              rfl

theorem applyLoop_roundTripInv {Pat : Type}
    (subn : Pat → List Char → Text → Text × Nat)
    (utf8d : List Byte → Option Text) (encodeUtf8 : Text → List Byte)
    (pairs : List (Pat × List Char)) (tree0 : Tree) :
    ∀ (entries processed : List FPath) (st st' : ApplyState),
      (processed ++ entries).Nodup → (∀ e ∈ entries, e ≠ []) →
      applyLoop subn utf8d encodeUtf8 pairs true entries st = (st', none) →
      RoundTripInv tree0 processed st →
      RoundTripInv tree0 (processed ++ entries) st' := by
  intro entries
  induction entries with
  | nil =>
    intro processed st st' _ _ hloop hinv
    injection hloop with h₁ _
    rw [List.append_nil, ← h₁]
    exact hinv
  | cons rel rest ih =>
    intro processed st st' hnodup hne hloop hinv
    unfold applyLoop at hloop
    by_cases hd : INDEX_HASH_DELIMITER ∈ rel
    · rw [if_pos hd] at hloop
      injection hloop with _ h₂
      cases h₂
    · rw [if_neg hd] at hloop
      have hproc : rel ∉ processed := by
        rw [List.nodup_append] at hnodup
        intro hmem
        exact hnodup.2.2 hmem (by simp)
      have hassoc : processed ++ rel :: rest = (processed ++ [rel]) ++ rest := by
        rw [List.append_assoc]
        rfl
      rw [hassoc]
      rw [hassoc] at hnodup
      exact ih (processed ++ [rel]) _ st' hnodup
        (fun e he => hne e (by simp [he])) hloop
        (applyStep_roundTripInv subn utf8d encodeUtf8 pairs tree0 processed
          st rel (hne rel (by simp)) hd hproc hinv)

/-- **C1** (corrected).  For every tree, rule pairs and substitution list
*naming no path twice* on which `apply_substitution` succeeds with a cache
archive, a subsequent `revert_substitution` on the unmodified tree succeeds
and restores every substituted file — bytes, recorded modification/access
timestamps, and kind — exactly to its pre-apply `FileData`. -/
theorem apply_revert_roundtrip (Pat : Type)
    (subn : Pat → List Char → Text → Text × Nat)
    (utf8d : List Byte → Option Text) (encodeUtf8 : Text → List Byte)
    (pairs : List (Pat × List Char)) (files_lines : List FPath) (tree : Tree)
    (c : CacheArchive) (ar : ApplyResult)
    (har : apply_substitution subn utf8d encodeUtf8 pairs files_lines tree
      true = ar)
    (hnodup : (files_lines.filter (fun l => decide (l ≠ []))).Nodup)
    (herr : ar.error = none) (hcache : ar.cache = some c) :
    (revert_substitution c ar.tree).error = none ∧
    (∀ q, q ∈ indexPathsOf c →
      (revert_substitution c ar.tree).tree q = tree q) := by
  obtain ⟨st', hloop, happ⟩ := apply_substitution_success subn utf8d
    encodeUtf8 pairs files_lines tree (by rw [har]; exact herr)
  have har' : ar = ⟨st'.tree, some ⟨st'.index, st'.origs⟩, none⟩ := by
    rw [← har, happ]
  have hartree : ar.tree = st'.tree := by rw [har']
  have hc : c = ⟨st'.index, st'.origs⟩ := by
    rw [har'] at hcache
    injection hcache with e
    exact e.symm
  have hinv : RoundTripInv tree
      (files_lines.filter (fun l => decide (l ≠ []))) st' := by
    have := applyLoop_roundTripInv subn utf8d encodeUtf8 pairs tree
      (files_lines.filter (fun l => decide (l ≠ []))) [] ⟨tree, [], []⟩ st'
      (by simpa using hnodup)
      (fun e he => of_decide_eq_true (List.mem_filter.mp he).2)
      hloop
      ⟨fun q _ => rfl, [], rfl, rfl, by simp, by simp⟩
    simpa using this
  obtain ⟨hun, prs, hidx, horig, hprsnodup, hprops⟩ := hinv
  have hv : validate_file_index st'.tree st'.index =
      ⟨true, prs.map Prod.fst, List.replicate prs.length true⟩ := by
    rw [hidx]
    unfold validate_file_index
    have := validateLoop_all_valid st'.tree prs true [] []
      (fun pr hpr =>
        let ⟨h₁, h₂, _, _, _, _, fdc, hfdc, hcrc, _, _⟩ := hprops pr hpr
        ⟨h₁, h₂, fdc, hfdc, hcrc⟩)
      hprsnodup (fun pr _ => List.not_mem_nil pr.1)
    simpa using this
  have hidxpaths : indexPathsOf c = prs.map Prod.fst := by
    rw [hc]
    show List.filterMap _ st'.index = _
    rw [hidx]
    exact filterMap_indexLines prs (fun pr hpr => (hprops pr hpr).2.1)
  have horig' : st'.origs =
      (prs.map Prod.fst).map (fun p => (p, contentAt tree p)) := by
    rw [horig, List.map_map]
    rfl
  have hallq : ∀ q ∈ prs.map Prod.fst,
      lookupAssoc st'.origs q = some (contentAt tree q) ∧
      st'.tree q = some (treeGetD st'.tree q) := by
    intro q hq
    constructor
    · rw [horig']
      exact lookupAssoc_map _ _ q hq
    · obtain ⟨pr, hpr, hpr1⟩ := List.mem_map.mp hq
      obtain ⟨_, _, _, _, _, _, fdc, hfdc, _, _, _⟩ := hprops pr hpr
      rw [hpr1] at hfdc
      rw [hfdc]
      unfold treeGetD
      rw [hfdc]
      rfl
  obtain ⟨hre, hrst, hrun⟩ := revertLoop_restores st'.origs
    (fun p => contentAt tree p) (fun p => treeGetD st'.tree p)
    (prs.map Prod.fst) st'.tree hprsnodup hallq
  have hR : revertLoop st'.origs (prs.map Prod.fst) st'.tree =
      ((revertLoop st'.origs (prs.map Prod.fst) st'.tree).1, none) := by
    rw [← hre]
  have hrev : revert_substitution c ar.tree =
      ⟨(revertLoop st'.origs (prs.map Prod.fst) st'.tree).1,
        (st'.origs.filter
          (fun o => decide (o.1 ∉ prs.map Prod.fst))).isEmpty, none⟩ := by
    rw [hartree, hc]
    unfold revert_substitution
    simp only []
    rw [hv]
    simp only []
    rw [hR, if_pos trivial]
  rw [hrev]
  refine ⟨rfl, ?_⟩
  intro q hq
  rw [hidxpaths] at hq
  simp only []
  obtain ⟨pr, hpr, hpr1⟩ := List.mem_map.mp hq
  obtain ⟨_, _, _, fd₀, hfd₀, hsym₀, fdc, hfdc, _, hat, hmt⟩ := hprops pr hpr
  rw [hpr1] at hfd₀ hfdc
  have hgetd : treeGetD st'.tree q = fdc := by
    unfold treeGetD
    rw [hfdc]
    rfl
  have hcont : contentAt tree q = fd₀.content := by
    unfold contentAt
    rw [hfd₀]
  have := hrst q hq
  rw [hR] at this
  simp only [] at this
  rw [this, hgetd, hcont, hat, hmt, hfd₀]
  have h1 : fd₀.atime_ns + TIMESTAMP_DELTA - TIMESTAMP_DELTA =
      fd₀.atime_ns := by ring
  have h2 : fd₀.mtime_ns + TIMESTAMP_DELTA - TIMESTAMP_DELTA =
      fd₀.mtime_ns := by ring
  rw [h1, h2]
  cases fd₀ with
  | mk cont at_ mt_ sym =>
    simp only [] at hsym₀
    rw [hsym₀]

/-- **C1 counterexample.**  The claim fails without a no-duplicate
hypothesis: on the tree `{p ↦ "a"}` with the single rule `a#ab` (whose
replacement re-matches the pattern) and the substitution list naming `p`
*twice*, `apply_substitution` succeeds and produces a cache archive, yet
the subsequent revert on the unmodified tree raises `KeyError` (the two
index lines for `p` cannot both match) and the file's bytes remain
`"abb"`, not the pre-apply `"a"`. -/
theorem apply_revert_roundtrip_cex :
    (apply_substitution subnLit utf8AsciiDecode utf8Encode
      [(['a'], ['a', 'b'])] [['p'], ['p']]
      (fun q => if q = ['p'] then some ⟨[mkByte 97], 0, 0, false⟩ else none)
      true).error = none ∧
    (apply_substitution subnLit utf8AsciiDecode utf8Encode
      [(['a'], ['a', 'b'])] [['p'], ['p']]
      (fun q => if q = ['p'] then some ⟨[mkByte 97], 0, 0, false⟩ else none)
      true).cache = some
        ⟨[indexLine ['p'] (crc32 [mkByte 97, mkByte 98]),
          indexLine ['p'] (crc32 [mkByte 97, mkByte 98, mkByte 98])],
         [(['p'], [mkByte 97]), (['p'], [mkByte 97, mkByte 98])]⟩ ∧
    (revert_substitution
      ⟨[indexLine ['p'] (crc32 [mkByte 97, mkByte 98]),
        indexLine ['p'] (crc32 [mkByte 97, mkByte 98, mkByte 98])],
       [(['p'], [mkByte 97]), (['p'], [mkByte 97, mkByte 98])]⟩
      (apply_substitution subnLit utf8AsciiDecode utf8Encode
        [(['a'], ['a', 'b'])] [['p'], ['p']]
        (fun q => if q = ['p'] then some ⟨[mkByte 97], 0, 0, false⟩ else none)
        true).tree).error = some .keyError ∧
    ((revert_substitution
      ⟨[indexLine ['p'] (crc32 [mkByte 97, mkByte 98]),
        indexLine ['p'] (crc32 [mkByte 97, mkByte 98, mkByte 98])],
       [(['p'], [mkByte 97]), (['p'], [mkByte 97, mkByte 98])]⟩
      (apply_substitution subnLit utf8AsciiDecode utf8Encode
        [(['a'], ['a', 'b'])] [['p'], ['p']]
        (fun q => if q = ['p'] then some ⟨[mkByte 97], 0, 0, false⟩ else none)
        true).tree).tree ['p']).map FileData.content =
      some [mkByte 97, mkByte 98, mkByte 98] := by
  exact ⟨by decide, by decide, by decide, by decide⟩

/-- **C1 witness** (for the amended claim, on a duplicate-free list). -/
theorem apply_revert_roundtrip_witness :
    (revert_substitution
      ⟨[indexLine ['p'] (crc32 [mkByte 98])], [(['p'], [mkByte 97])]⟩
      (apply_substitution subnLit utf8AsciiDecode utf8Encode
        [(['a'], ['b'])] [['p']]
        (fun q => if q = ['p'] then some ⟨[mkByte 97], 0, 0, false⟩ else none)
        true).tree).error = none ∧
    (revert_substitution
      ⟨[indexLine ['p'] (crc32 [mkByte 98])], [(['p'], [mkByte 97])]⟩
      (apply_substitution subnLit utf8AsciiDecode utf8Encode
        [(['a'], ['b'])] [['p']]
        (fun q => if q = ['p'] then some ⟨[mkByte 97], 0, 0, false⟩ else none)
        true).tree).tree ['p'] = some ⟨[mkByte 97], 0, 0, false⟩ := by
  have h := apply_revert_roundtrip (List Char) subnLit utf8AsciiDecode
    utf8Encode [(['a'], ['b'])] [['p']]
    (fun q => if q = ['p'] then some ⟨[mkByte 97], 0, 0, false⟩ else none)
    ⟨[indexLine ['p'] (crc32 [mkByte 98])], [(['p'], [mkByte 97])]⟩
    (apply_substitution subnLit utf8AsciiDecode utf8Encode
      [(['a'], ['b'])] [['p']]
      (fun q => if q = ['p'] then some ⟨[mkByte 97], 0, 0, false⟩ else none)
      true)
    rfl (by decide) (by decide) (by decide)
  refine ⟨h.1, ?_⟩
  rw [h.2 ['p'] (by decide)]
  decide

end DomainSubstitution
